import Mathlib

/-!
Verification of the repomix file filtering, concatenation and chunking core
(src/repomix/utils/parser.py and src/repomix/utils/file_operations.py).

Text is modelled as a list of characters (`Str`), matching Python `str`
indexing and slicing, which are code-point based.  The tokenizer
(`count_tokens`, backed by the external tiktoken library) is an external
boundary service per the design; every definition is parameterised by an
abstract deterministic tokenizer `tok : Str → Nat`, and `charCount`
(token count = character count) is the concrete instance used to
evaluate the algorithms on explicit inputs.
-/

abbrev Str : Type := List Char

/-- Convert a Lean string literal to the character-list model. -/
def str (s : String) : Str := s.data

/-- Python str.strip whitespace class (ASCII part): space, tab, newline,
carriage return, vertical tab, form feed. -/
def isWs (c : Char) : Bool :=
  c == ' ' || c == '\t' || c == '\n' || c == '\r' || c == '\x0b' || c == '\x0c'

/-- Python `s.strip()`: drop leading and trailing whitespace. -/
def strip (s : Str) : Str :=
  ((s.dropWhile isWs).reverse.dropWhile isWs).reverse

/-- Remove every newline character; used to state preservation of
non-newline characters ("modulo newline seams"). -/
def filterNN (s : Str) : Str := s.filter (fun c => !(c == '\n'))

/-- Python `content.split("\n")`. -/
def splitNl : Str → List Str
  | [] => [[]]
  | c :: rest =>
    if c == '\n' then [] :: splitNl rest
    else
      match splitNl rest with
      | [] => [[c]]
      | r :: rs => (c :: r) :: rs

/-- Python `"\n".join(lines)`. -/
def joinNl : List Str → Str
  | [] => []
  | [x] => x
  | x :: rest => x ++ '\n' :: joinNl rest

/-- Concatenation of a list of strings. -/
def catStr (xs : List Str) : Str := xs.foldr (fun a b => a ++ b) []

/-- Python decimal rendering of a natural number. -/
def natStr (n : Nat) : Str := (Nat.repr n).data

/-- Python `f"{n:03d}"`: zero-pad to width three. -/
def pad3 (n : Nat) : Str :=
  let s := natStr n
  if s.length < 3 then List.replicate (3 - s.length) '0' ++ s else s

/-- Lexicographic comparison of Python strings (by code point), as used
by `sorted`. -/
def strLe : Str → Str → Bool
  | [], _ => true
  | _ :: _, [] => false
  | a :: xs, b :: ys => if a < b then true else if b < a then false else strLe xs ys

def sLe (a b : Str) : Prop := strLe a b = true

instance : DecidableRel sLe := fun a b => instDecidableEqBool (strLe a b) true

/-- Python `sorted(...)` on a list of distinct keys. -/
def sortKeys (l : List Str) : List Str := List.insertionSort sLe l

/-- The spec's Tokenizer boundary service is any deterministic
`count_tokens : string → int`.  Modelled from the spec: the concrete
tiktoken cl100k_base encoder is an external dependency; this instance
counts one token per character. -/
def charCount (s : Str) : Nat := s.length

/-!
## File system model

`is_binary_file`, `glob_files` and `concatenate_files` read the file
system.  A file is modelled by the data those functions observe: its
path relative to the base, the MIME type guess for its name
(`mimetypes.guess_type`, `none` when no type can be guessed), its raw
bytes (`none` when the file cannot be opened), whether `read_text`
decodes it, and the decoded text.
-/

structure PyFile where
  relpath : Str
  mime : Option Str
  rawBytes : Option (List Nat)
  isFile : Bool
  decodes : Bool
  content : Str
  deriving DecidableEq, Repr

/-- parser.py relies on file_operations.is_binary_file: binary when the
guessed MIME type exists and does not start with "text/"; otherwise
binary iff the first 1024 bytes contain a null byte; any read failure is
treated as binary. -/
def is_binary_file (f : PyFile) : Bool :=
  match f.mime with
  | some m =>
    if !((str "text/").isPrefixOf m) then true
    else
      match f.rawBytes with
      | none => true
      | some bs => (bs.take 1024).contains 0
  | none =>
    match f.rawBytes with
    | none => true
    | some bs => (bs.take 1024).contains 0

/-- The file's first 1024 readable bytes contain a null byte. -/
def hasNullByte (f : PyFile) : Bool :=
  match f.rawBytes with
  | none => false
  | some bs => (bs.take 1024).contains 0

/-- Python exceptions distinguished by the claims.  `notFoundError` is
modelled from the spec: the spec's error taxonomy names a NotFoundError
for the missing-target case, but no such exception class exists in the
source, which raises ValueError. -/
inductive PyExc where
  | valueError (msg : Str)
  | notFoundError (msg : Str)
  deriving DecidableEq, Repr

def isNotFoundErr {α : Type} : Except PyExc α → Bool
  | Except.error (PyExc.notFoundError _) => true
  | _ => false

/-- The target directory of `glob_files`: whether `target_path.exists()`
holds, and the entries `target_path.rglob('*')` yields. -/
structure TargetDir where
  found : Bool
  entries : List PyFile
  deriving DecidableEq, Repr

/-- parser.glob_files.  `pmatch` abstracts `PurePath.match` (glob
pattern matching of a path against one pattern); `targetDesc` is the
string rendering of the resolved target path used in the error
message. -/
def glob_files (pmatch : Str → Str → Bool) (d : TargetDir)
    (ignore_patterns : List Str) (allow_missing : Bool) (targetDesc : Str) :
    Except PyExc (List PyFile) :=
  if d.found = false then
    if allow_missing then Except.ok []
    else Except.error (PyExc.valueError (str "Target directory not found: " ++ targetDesc))
  else
    Except.ok (d.entries.filter fun f =>
      f.isFile && !(ignore_patterns.any fun pat => pmatch f.relpath pat)
        && !(is_binary_file f))

/-- The metadata block of `concatenate_files`: header line plus the
five key/value lines in insertion order.  `now` stands for
`datetime.now().isoformat()`. -/
def metadataLines (now : Str) (file_count : Nat) (repository_url target_dir : Str) :
    List Str :=
  [str "# Metadata",
   str "total_tokens: 0",
   str "file_count: " ++ natStr file_count,
   str "repository: " ++ repository_url,
   str "target_directory: " ++ target_dir,
   str "generated: " ++ now]

/-- One iteration of the file loop of `concatenate_files`: skip binary
files, skip files raising UnicodeDecodeError, otherwise append a
blank-line separator (the `len(result) > 0` guard of the source),
the `File:` header line and the raw content. -/
def concatAddFile (result : List Str) (f : PyFile) : List Str :=
  if is_binary_file f then result
  else if f.decodes = false then result
  else
    let result1 := if result.length > 0 then result ++ [[]] else result
    result1 ++ [str "File: " ++ f.relpath, f.content]

/-- parser.concatenate_files.  Files are assumed to lie under the base
path (`relative_to` is precomputed in `PyFile.relpath`). -/
def concatenate_files (now : Str) (files : List PyFile)
    (repository_url target_dir : Str) : Str :=
  if files = [] then []
  else
    joinNl (files.foldl concatAddFile
      (metadataLines now files.length repository_url target_dir))

/-!
## Chunker (parser.chunk_content and helpers)

Loops that are `while` loops in the source are written with an explicit
fuel argument that is initialised large enough to run the loop to
completion (each iteration strictly shrinks the data the fuel bounds),
keeping every definition kernel-computable.  `token_limit` is an `Int`
because the source computes possibly negative differences such as
`token_limit - count_tokens(header)` with Python integers.
-/

/-- parser.format_file_section. -/
def format_file_section (filepath content : Str) : Str :=
  str "File: " ++ filepath ++ '\n' :: content

/-- The display name of a numbered part: `f"{part_number:03d}_{filename}"`. -/
def partName (part_number : Nat) (filename : Str) : Str :=
  pad3 part_number ++ '_' :: filename

/-- The inner binary search of `split_long_line`: largest `left` not
exceeding the available token budget. -/
def bsearchGo (tok : Str → Nat) (avail : Int) (cp : Str) :
    Nat → Nat → Nat → Nat
  | 0, left, _ => left
  | fuel + 1, left, right =>
    if left + 1 < right then
      let mid := (left + right) / 2
      if (tok (cp.take mid) : Int) ≤ avail then bsearchGo tok avail cp fuel mid right
      else bsearchGo tok avail cp fuel left mid
    else left

/-- The inner `while count_tokens(current_part) > available_tokens` loop
of `split_long_line`: shrink `current_part` by binary search; if the
search returns the empty string, force progress with half (at least one)
of the remaining characters and stop. -/
def shrinkPartGo (tok : Str → Nat) (avail : Int) (remaining : Str) :
    Nat → Str → Str
  | 0, cp => cp
  | fuel + 1, cp =>
    if (tok cp : Int) > avail then
      let left := bsearchGo tok avail cp (cp.length + 1) 0 cp.length
      let cp2 := cp.take left
      if cp2 = [] then remaining.take (max 1 (remaining.length / 2))
      else shrinkPartGo tok avail remaining fuel cp2
    else cp

/-- The outer `while remaining` loop of `split_long_line`.  `lineLen` is
the length of the original line, used by the source's safety check
`if len(remaining) == len(line)`. -/
def split_long_line_go (tok : Str → Nat) (filename : Str) (token_limit : Int)
    (lineLen : Nat) : Nat → Nat → Str → List Str
  | 0, _, _ => []
  | fuel + 1, part_number, remaining =>
    if remaining = [] then []
    else
      let header := format_file_section (partName part_number filename) []
      let avail : Int := token_limit - (tok header : Int)
      let current_part := shrinkPartGo tok avail remaining (remaining.length + 1) remaining
      let chunk := format_file_section (partName part_number filename) current_part
      let rem2 := remaining.drop current_part.length
      let rem3 := if rem2.length = lineLen then rem2.drop 1 else rem2
      chunk :: split_long_line_go tok filename token_limit lineLen fuel (part_number + 1) rem3

/-- parser.split_long_line. -/
def split_long_line (tok : Str → Nat) (line filename : Str)
    (part_number : Nat) (token_limit : Int) : List Str :=
  split_long_line_go tok filename token_limit line.length (line.length + 1) part_number line

/-- The mutable state shared across files in `chunk_content`. -/
structure ChunkState where
  chunks : List Str
  current_chunk : Str
  current_chunk_tokens : Nat
  deriving DecidableEq, Repr

/-- parser.chunk_content.flush_current_chunk. -/
def flush_current_chunk (st : ChunkState) : ChunkState :=
  if strip st.current_chunk ≠ [] then
    ⟨st.chunks ++ [strip st.current_chunk], [], 0⟩
  else st

/-- The per-file loop state of the two line-accumulation loops. -/
structure PartState where
  st : ChunkState
  part_number : Nat
  part_lines : List Str
  current_part_tokens : Nat
  deriving DecidableEq, Repr

/-- The first line check of `chunk_content`: some line's token count
exceeds `token_limit - count_tokens(header)` for the plain file header. -/
def fileHasLongLines (tok : Str → Nat) (token_limit : Int) (filename : Str)
    (lines : List Str) : Bool :=
  lines.any fun line =>
    (tok line : Int) > token_limit - (tok (format_file_section filename []) : Int)

/-- The `for line in lines` loop of the long-line branch of
`chunk_content`. -/
def longLineLoop (tok : Str → Nat) (token_limit : Int) (filename : Str) :
    PartState → List Str → PartState
  | ps, [] => ps
  | ps, line :: rest =>
    let header_tokens := tok (format_file_section (partName ps.part_number filename) [])
    let line_tokens := tok line
    if (line_tokens : Int) > token_limit - (header_tokens : Int) then
      let ps1 : PartState :=
        if ps.part_lines ≠ [] then
          let part_content := joinNl ps.part_lines
          let st1 := flush_current_chunk ps.st
          ⟨⟨st1.chunks ++ [format_file_section (partName ps.part_number filename) part_content],
            st1.current_chunk, st1.current_chunk_tokens⟩,
           ps.part_number + 1, [], 0⟩
        else ps
      let line_chunks := split_long_line tok line filename ps1.part_number token_limit
      longLineLoop tok token_limit filename
        ⟨⟨ps1.st.chunks ++ line_chunks, ps1.st.current_chunk, ps1.st.current_chunk_tokens⟩,
         ps1.part_number + line_chunks.length, ps1.part_lines, ps1.current_part_tokens⟩ rest
    else
      if (ps.current_part_tokens : Int) + (line_tokens : Int) + (header_tokens : Int) ≤ token_limit then
        longLineLoop tok token_limit filename
          ⟨ps.st, ps.part_number, ps.part_lines ++ [line], ps.current_part_tokens + line_tokens⟩ rest
      else
        if ps.part_lines ≠ [] then
          let part_content := joinNl ps.part_lines
          let st1 := flush_current_chunk ps.st
          longLineLoop tok token_limit filename
            ⟨⟨st1.chunks ++ [format_file_section (partName ps.part_number filename) part_content],
              st1.current_chunk, st1.current_chunk_tokens⟩,
             ps.part_number + 1, [line], line_tokens⟩ rest
        else
          let st1 := flush_current_chunk ps.st
          longLineLoop tok token_limit filename
            ⟨⟨st1.chunks ++ [format_file_section (partName ps.part_number filename) line],
              st1.current_chunk, st1.current_chunk_tokens⟩,
             ps.part_number + 1, ps.part_lines, ps.current_part_tokens⟩ rest

/-- The trailing `if part_lines:` flush after either line loop. -/
def partFinish (filename : Str) (ps : PartState) : ChunkState :=
  if ps.part_lines ≠ [] then
    let st1 := flush_current_chunk ps.st
    ⟨st1.chunks ++ [format_file_section (partName ps.part_number filename) (joinNl ps.part_lines)],
     st1.current_chunk, st1.current_chunk_tokens⟩
  else ps.st

/-- The `for line in lines` loop of the whole-file fallback branch
("split by lines" when the whole section exceeds the limit). -/
def fallbackLoop (tok : Str → Nat) (token_limit : Int) (filename : Str) :
    PartState → List Str → PartState
  | ps, [] => ps
  | ps, line :: rest =>
    let header_tokens := tok (format_file_section (partName ps.part_number filename) [])
    let line_tokens := tok line
    if (ps.current_part_tokens : Int) + (line_tokens : Int) + (header_tokens : Int) ≤ token_limit then
      fallbackLoop tok token_limit filename
        ⟨ps.st, ps.part_number, ps.part_lines ++ [line], ps.current_part_tokens + line_tokens⟩ rest
    else
      if ps.part_lines ≠ [] then
        let part_content := joinNl ps.part_lines
        let st1 := flush_current_chunk ps.st
        fallbackLoop tok token_limit filename
          ⟨⟨st1.chunks ++ [format_file_section (partName ps.part_number filename) part_content],
            st1.current_chunk, st1.current_chunk_tokens⟩,
           ps.part_number + 1, [line], line_tokens⟩ rest
      else
        let st1 := flush_current_chunk ps.st
        fallbackLoop tok token_limit filename
          ⟨⟨st1.chunks ++ [format_file_section (partName ps.part_number filename) line],
            st1.current_chunk, st1.current_chunk_tokens⟩,
           ps.part_number + 1, ps.part_lines, ps.current_part_tokens⟩ rest

/-- Processing of one file inside `chunk_content`'s main loop. -/
def processFile (tok : Str → Nat) (token_limit : Int) (st : ChunkState)
    (filename content : Str) : ChunkState :=
  let lines := splitNl content
  if fileHasLongLines tok token_limit filename lines then
    partFinish filename (longLineLoop tok token_limit filename ⟨st, 1, [], 0⟩ lines)
  else
    let full_section := format_file_section filename content
    let section_tokens := tok full_section
    if (section_tokens : Int) ≤ token_limit then
      if st.current_chunk ≠ [] then
        let candidate := st.current_chunk ++ str "\n\n" ++ full_section
        let candidate_tokens := tok candidate
        if (candidate_tokens : Int) ≤ token_limit then
          ⟨st.chunks, candidate, candidate_tokens⟩
        else
          let st1 := flush_current_chunk st
          ⟨st1.chunks, full_section, section_tokens⟩
      else ⟨st.chunks, full_section, section_tokens⟩
    else
      partFinish filename (fallbackLoop tok token_limit filename ⟨st, 1, [], 0⟩ lines)

/-- Dictionary lookup: `content_by_file[filename]`. -/
def lookupD (m : List (Str × Str)) (k : Str) : Str := (List.lookup k m).getD []

/-- parser.chunk_content.  The mapping is an association list with
distinct keys (a Python dict); files are processed in sorted key
order. -/
def chunk_content (tok : Str → Nat) (content_by_file : List (Str × Str))
    (token_limit : Int) : List Str :=
  let keys := sortKeys (content_by_file.map Prod.fst)
  let final := keys.foldl
    (fun st k => processFile tok token_limit st k (lookupD content_by_file k))
    ⟨[], [], 0⟩
  (flush_current_chunk final).chunks

/-!
## Helper lemmas for the concatenator
-/

theorem concatAddFile_shape (res : List Str) (f : PyFile) :
    ∃ add, concatAddFile res f = res ++ add := by
  by_cases h1 : is_binary_file f = true
  · exact ⟨[], by simp [concatAddFile, h1]⟩
  · by_cases h2 : f.decodes = false
    · exact ⟨[], by simp [concatAddFile, h1, h2]⟩
    · by_cases h3 : res.length > 0
      · refine ⟨[[]] ++ [str "File: " ++ f.relpath, f.content], ?_⟩
        simp [concatAddFile, h1, h2, h3]
      · refine ⟨[str "File: " ++ f.relpath, f.content], ?_⟩
        simp [concatAddFile, h1, h2, h3]

theorem foldl_concatAddFile_shape (fs : List PyFile) :
    ∀ init : List Str, ∃ rest, fs.foldl concatAddFile init = init ++ rest := by
  induction fs with
  | nil => exact fun init => ⟨[], by simp⟩
  | cons f fs ih =>
    intro init
    obtain ⟨a, ha⟩ := concatAddFile_shape init f
    obtain ⟨r, hr⟩ := ih (init ++ a)
    exact ⟨a ++ r, by simp [List.foldl_cons, ha, hr]⟩

theorem foldl_concatAddFile_good (fs : List PyFile) :
    ∀ init : List Str, init ≠ [] →
    (∀ f ∈ fs, is_binary_file f = false ∧ f.decodes = true) →
    fs.foldl concatAddFile init =
      init ++ fs.flatMap (fun f => [[], str "File: " ++ f.relpath, f.content]) := by
  induction fs with
  | nil => intro init _ _; simp
  | cons f fs ih =>
    intro init hne hg
    have hf := hg f (by simp)
    have hlen : init.length > 0 := List.length_pos.mpr hne
    have step : concatAddFile init f = init ++ [[], str "File: " ++ f.relpath, f.content] := by
      simp [concatAddFile, hf.1, hf.2, hlen]
    rw [List.foldl_cons, step,
      ih (init ++ [[], str "File: " ++ f.relpath, f.content]) (by simp)
        (fun g hgm => hg g (by simp [hgm]))]
    simp

theorem joinNl_append (a b : List Str) (h : a ≠ []) :
    joinNl (a ++ b) = joinNl a ++ (if b = [] then [] else '\n' :: joinNl b) := by
  induction a with
  | nil => cases h rfl
  | cons x xs ih =>
    cases xs with
    | nil =>
      cases b with
      | nil => simp [joinNl]
      | cons y ys => simp [joinNl]
    | cons z zs =>
      have hz := ih (by simp)
      cases b with
      | nil => simp [joinNl]
      | cons y ys => simp only [List.cons_append, joinNl] at hz ⊢; simp [hz]

/-!
## Claims about the file filter and the concatenator
-/

/-- C5: `is_binary_file` returns true exactly when the guessed MIME type
does not start with "text/", or the file is unreadable, or the first
1024 bytes contain a null byte; consequently a file with a null byte in
its first 1024 bytes is excluded from `glob_files` results and
contributes no section to `concatenate_files`, regardless of
extension. -/
theorem c5_binary_detection (f : PyFile) :
    (is_binary_file f = true ↔
      ((∃ m, f.mime = some m ∧ ¬ ((str "text/").isPrefixOf m = true)) ∨
        f.rawBytes = none ∨
        (∃ bs, f.rawBytes = some bs ∧ (bs.take 1024).contains 0 = true))) ∧
    (hasNullByte f = true →
      (∀ pmatch d ig am tdesc res,
        glob_files pmatch d ig am tdesc = Except.ok res → f ∉ res) ∧
      (∀ result, concatAddFile result f = result)) := by
  have hbin : hasNullByte f = true → is_binary_file f = true := by
    obtain ⟨rp, mime, rb, isf, dec, ct⟩ := f
    cases rb with
    | none => intro h; exact Bool.noConfusion h
    | some bs =>
      intro h
      have h2 : (bs.take 1024).contains 0 = true := h
      cases mime with
      | none => exact h2
      | some m =>
        show (if !((str "text/").isPrefixOf m) then true
              else (bs.take 1024).contains 0) = true
        by_cases hp : (str "text/").isPrefixOf m = true
        · rw [hp]; exact h2
        · rw [Bool.eq_false_iff.mpr hp]; rfl
  refine ⟨?_, ?_⟩
  · obtain ⟨rp, mime, rb, isf, dec, ct⟩ := f
    cases mime with
    | none =>
      cases rb with
      | none => exact ⟨fun _ => Or.inr (Or.inl rfl), fun _ => rfl⟩
      | some bs =>
        constructor
        · intro h; exact Or.inr (Or.inr ⟨bs, rfl, h⟩)
        · rintro (⟨m2, hm2, _⟩ | h2 | ⟨bs2, hb2, hc⟩)
          · exact Option.noConfusion hm2
          · exact Option.noConfusion h2
          · have h3 : bs = bs2 := by injection hb2
            show (bs.take 1024).contains 0 = true
            rw [h3]; exact hc
    | some m =>
      by_cases hp : (str "text/").isPrefixOf m = true
      · cases rb with
        | none =>
          have hL : is_binary_file ⟨rp, some m, none, isf, dec, ct⟩ = true := by
            show (if !((str "text/").isPrefixOf m) then true else true) = true
            rw [hp]; rfl
          exact ⟨fun _ => Or.inr (Or.inl rfl), fun _ => hL⟩
        | some bs =>
          have hL : is_binary_file ⟨rp, some m, some bs, isf, dec, ct⟩ =
              (bs.take 1024).contains 0 := by
            show (if !((str "text/").isPrefixOf m) then true
                  else (bs.take 1024).contains 0) = _
            rw [hp]; rfl
          rw [hL]
          constructor
          · intro h; exact Or.inr (Or.inr ⟨bs, rfl, h⟩)
          · rintro (⟨m2, hm2, hpm⟩ | h2 | ⟨bs2, hb2, hc⟩)
            · have h3 : m = m2 := by injection hm2
              rw [← h3] at hpm; exact absurd hp hpm
            · exact Option.noConfusion h2
            · have h3 : bs = bs2 := by injection hb2
              rw [h3]; exact hc
      · have hL : is_binary_file ⟨rp, some m, rb, isf, dec, ct⟩ = true := by
          cases rb with
          | none =>
            show (if !((str "text/").isPrefixOf m) then true else true) = true
            rw [Bool.eq_false_iff.mpr hp]; rfl
          | some bs =>
            show (if !((str "text/").isPrefixOf m) then true
                  else (bs.take 1024).contains 0) = true
            rw [Bool.eq_false_iff.mpr hp]; rfl
        rw [hL]
        exact ⟨fun _ => Or.inl ⟨m, rfl, hp⟩, fun _ => rfl⟩
  · intro h
    have hb := hbin h
    refine ⟨?_, ?_⟩
    · intro pmatch d ig am tdesc res hres hmem
      unfold glob_files at hres
      by_cases hd : d.found = false
      · rw [if_pos hd] at hres
        cases am with
        | true =>
          rw [if_pos rfl] at hres
          have h2 : ([] : List PyFile) = res := by injection hres
          rw [← h2] at hmem
          exact absurd hmem (List.not_mem_nil f)
        | false =>
          rw [if_neg (by simp)] at hres
          exact Except.noConfusion hres
      · rw [if_neg hd] at hres
        injection hres with h2
        rw [← h2] at hmem
        have h3 := (List.mem_filter.mp hmem).2
        rcases Bool.and_eq_true_iff.mp h3 with ⟨_, h4⟩
        rw [hb] at h4
        exact Bool.noConfusion h4
    · intro result
      simp [concatAddFile, hb]

/-- C5 witness: a readable text-MIME file whose first byte is null is
classified binary, filtered out of a directory listing that contains it,
and adds no section during concatenation. -/
theorem c5_binary_detection_witness :
    hasNullByte ⟨str "b.py", some (str "text/plain"), some [0], true, true, []⟩ = true ∧
    (⟨str "b.py", some (str "text/plain"), some [0], true, true, []⟩ : PyFile) ∉ ([] : List PyFile) ∧
    concatAddFile [str "x"]
      ⟨str "b.py", some (str "text/plain"), some [0], true, true, []⟩ = [str "x"] := by
  refine ⟨by decide, ?_, ?_⟩
  · exact ((c5_binary_detection _).2 (by decide)).1 (fun _ _ => false)
      ⟨true, [⟨str "b.py", some (str "text/plain"), some [0], true, true, []⟩]⟩
      [] false (str "/t") [] rfl
  · exact ((c5_binary_detection _).2 (by decide)).2 [str "x"]

/-- C6 counterexample: on a missing target directory with
`allow_missing = False`, `glob_files` raises ValueError (message
"Target directory not found: ..."), not a NotFoundError. -/
theorem c6_counterexample :
    glob_files (fun _ _ => false) ⟨false, []⟩ [] false (str "/repo/missing") =
      Except.error (PyExc.valueError (str "Target directory not found: /repo/missing")) ∧
    isNotFoundErr (glob_files (fun _ _ => false) ⟨false, []⟩ [] false (str "/repo/missing")) = false := by
  exact ⟨rfl, rfl⟩

/-- C6 amended: for every missing target directory, `glob_files` raises
ValueError with message "Target directory not found: <path>" when
`allow_missing` is false, and returns the empty list when it is true. -/
theorem c6_missing_dir_amended (pmatch : Str → Str → Bool) (d : TargetDir)
    (ig : List Str) (tdesc : Str) (h : d.found = false) :
    glob_files pmatch d ig false tdesc =
      Except.error (PyExc.valueError (str "Target directory not found: " ++ tdesc)) ∧
    glob_files pmatch d ig true tdesc = Except.ok [] := by
  constructor <;> simp [glob_files, h]

/-- C6 witness: the amended behaviour at a concrete missing directory. -/
theorem c6_missing_dir_witness :
    (⟨false, []⟩ : TargetDir).found = false ∧
    (glob_files (fun _ _ => false) ⟨false, []⟩ [] false (str "/x") =
      Except.error (PyExc.valueError (str "Target directory not found: " ++ str "/x")) ∧
     glob_files (fun _ _ => false) ⟨false, []⟩ [] true (str "/x") = Except.ok []) :=
  ⟨rfl, c6_missing_dir_amended (fun _ _ => false) ⟨false, []⟩ [] (str "/x") rfl⟩

/-- C7 counterexample: for the empty file list, `concatenate_files`
returns the empty string, which does not begin with the `# Metadata`
section. -/
theorem c7_counterexample :
    concatenate_files (str "2024-01-01T00:00:00") []
      (str "https://github.com/test/repo") (str "/test/dir") = [] ∧
    (str "# Metadata").isPrefixOf
      (concatenate_files (str "2024-01-01T00:00:00") []
        (str "https://github.com/test/repo") (str "/test/dir")) = false := by
  exact ⟨rfl, by decide⟩

/-- C7 amended: for every non-empty file list, the result begins with
the `# Metadata` section followed by exactly the five key-value lines
`total_tokens: 0`, `file_count: <number of input files>`,
`repository: ...`, `target_directory: ...`, `generated: ...`, in that
order. -/
theorem c7_metadata_amended (now : Str) (files : List PyFile) (u t : Str)
    (h : files ≠ []) :
    ∃ rest, concatenate_files now files u t =
      joinNl (metadataLines now files.length u t) ++ rest := by
  obtain ⟨r, hr⟩ := foldl_concatAddFile_shape files (metadataLines now files.length u t)
  unfold concatenate_files
  rw [if_neg h, hr, joinNl_append _ _ (by simp [metadataLines])]
  exact ⟨_, rfl⟩

/-- C7 witness: the amended metadata layout at a concrete
one-file input. -/
theorem c7_metadata_witness :
    ([⟨str "a.py", some (str "text/plain"), some [104], true, true, str "hi"⟩] : List PyFile) ≠ [] ∧
    ∃ rest, concatenate_files (str "T")
        [⟨str "a.py", some (str "text/plain"), some [104], true, true, str "hi"⟩]
        (str "R") (str "D") =
      joinNl (metadataLines (str "T") 1 (str "R") (str "D")) ++ rest :=
  ⟨by decide, c7_metadata_amended (str "T")
    [⟨str "a.py", some (str "text/plain"), some [104], true, true, str "hi"⟩]
    (str "R") (str "D") (by decide)⟩

/-- C9 counterexample: with a single decodable file, the emitted
artifact contains a blank-line separator before the first (and only)
file section — the separator is not omitted before the first file. -/
theorem c9_counterexample :
    concatenate_files (str "T")
      [⟨str "a", some (str "text/plain"), some [120], true, true, str "x"⟩]
      (str "R") (str "D") =
      joinNl (metadataLines (str "T") 1 (str "R") (str "D") ++
        [[], str "File: a", str "x"]) ∧
    concatenate_files (str "T")
      [⟨str "a", some (str "text/plain"), some [120], true, true, str "x"⟩]
      (str "R") (str "D") ≠
      joinNl (metadataLines (str "T") 1 (str "R") (str "D") ++
        [str "File: a", str "x"]) := by
  exact ⟨by decide, by decide⟩

/-- C9 amended: for every non-empty list of decodable, non-binary input
files, `concatenate_files` emits a blank-line separator before every
file section — including the first, separating it from the metadata
block — followed by the `File: <relative path>` line and the raw
content. -/
theorem c9_sections_amended (now : Str) (files : List PyFile) (u t : Str)
    (hne : files ≠ [])
    (hgood : ∀ f ∈ files, is_binary_file f = false ∧ f.decodes = true) :
    concatenate_files now files u t =
      joinNl (metadataLines now files.length u t ++
        files.flatMap (fun f => [[], str "File: " ++ f.relpath, f.content])) := by
  unfold concatenate_files
  rw [if_neg hne,
    foldl_concatAddFile_good files (metadataLines now files.length u t)
      (by simp [metadataLines]) hgood]

/-- C9 witness: the amended per-file layout at a concrete
one-file input. -/
theorem c9_sections_witness :
    (([⟨str "a", some (str "text/plain"), some [120], true, true, str "x"⟩] : List PyFile) ≠ [] ∧
      ∀ f ∈ ([⟨str "a", some (str "text/plain"), some [120], true, true, str "x"⟩] : List PyFile),
        is_binary_file f = false ∧ f.decodes = true) ∧
    concatenate_files (str "T")
      [⟨str "a", some (str "text/plain"), some [120], true, true, str "x"⟩]
      (str "R") (str "D") =
      joinNl (metadataLines (str "T") 1 (str "R") (str "D") ++
        ([⟨str "a", some (str "text/plain"), some [120], true, true, str "x"⟩] : List PyFile).flatMap
          (fun f => [[], str "File: " ++ f.relpath, f.content])) :=
  ⟨⟨by decide, by decide⟩, c9_sections_amended (str "T") _ (str "R") (str "D")
    (by decide) (by decide)⟩

/-!
## Code-bug evaluations of the chunker
-/

/-- C1: the chunker's own docstring and its test suite require every
chunk to stay within the token limit, but for
`{"f": "AAAAAAAAAA\n"}` with budget 18 (character-count tokenizer) the
mode check passes each line against the short header `File: f` while
the emission path uses the longer numbered header `File: 001_f` and
performs no size check when a single line becomes its own part: the
first emitted chunk has 22 tokens, exceeding the budget with no
one-character fragment involved. -/
theorem c1_budget_violation :
    chunk_content charCount [(str "f", str "AAAAAAAAAA\n")] 18 =
      [str "File: 001_f\nAAAAAAAAAA", str "File: 002_f\n"] ∧
    ((charCount (str "File: 001_f\nAAAAAAAAAA") : Int) > 18) := by
  exact ⟨by decide, by decide⟩

/-- C2: chunk emission order does not follow lexicographic filename
order: for `{"a.py": "hello", "z.py": <one 30-character line>}` with
budget 20, the oversized line of `z.py` is split and its fragments are
appended without first flushing the pending accumulator holding
`a.py`'s packed section, so the single `a.py` chunk is emitted last,
after every `z.py` chunk, although `a.py` sorts first. -/
theorem c2_order_violation :
    chunk_content charCount
      [(str "a.py", str "hello"), (str "z.py", str "XXXXXXXXXXXXXXXXXXXXXXXXXXXXXX")] 20 =
      [str "File: 001_z.py\nXXXXX", str "File: 002_z.py\nXXXXX", str "File: 003_z.py\nXXXXX",
       str "File: 004_z.py\nXXXXX", str "File: 005_z.py\nXXXXX", str "File: 006_z.py\nXXXXX",
       str "File: a.py\nhello"] ∧
    strLe (str "a.py") (str "z.py") = true := by
  exact ⟨by decide, by decide⟩

/-- C10: chunks built as numbered parts are appended directly, without
the trim that `flush_current_chunk` applies to accumulator chunks: for
`{"f": "AAAAAAAAAA\nBBBBBBBBBB\n"}` with budget 26 the second emitted
chunk ends with a newline, contradicting the trim-at-flush description
(and the repository's own test that chunks never end with a newline). -/
theorem c10_untrimmed_chunk :
    chunk_content charCount [(str "f", str "AAAAAAAAAA\nBBBBBBBBBB\n")] 26 =
      [str "File: 001_f\nAAAAAAAAAA", str "File: 002_f\nBBBBBBBBBB\n"] ∧
    (str "File: 002_f\nBBBBBBBBBB\n").getLast? = some '\n' ∧
    isWs '\n' = true := by
  exact ⟨by decide, by decide, by decide⟩

/-- C3 counterexample: for `{"f": "hi  "}` (trailing spaces) and budget
100, the only chunk is `File: f\nhi` — the trailing spaces of the file
content are dropped by the trim at flush time, a loss that is not a
newline seam. -/
theorem c3_counterexample :
    chunk_content charCount [(str "f", str "hi  ")] 100 = [str "File: f\nhi"] ∧
    filterNN (str "hi") ≠ filterNN (str "hi  ") := by
  exact ⟨by decide, by decide⟩

/-- C4 counterexample: for the non-empty mapping `{"f": "\n"}` (content
a single newline, a non-empty string) and positive budget 1, the chunker
returns the empty chunk sequence: both empty line fragments are dropped
because the budget cannot fit any header. -/
theorem c4_counterexample :
    chunk_content charCount [(str "f", str "\n")] 1 = [] ∧ str "\n" ≠ [] := by
  exact ⟨by decide, by decide⟩

/-- C8 counterexample: for `{"empty.py": "", "normal.py": "print(hi)"}`
at the default budget 4000, the empty file's header is packed into one
chunk together with `normal.py`; no emitted chunk is the empty-bodied
chunk `File: empty.py` alone. -/
theorem c8_counterexample :
    chunk_content charCount [(str "empty.py", []), (str "normal.py", str "print(hi)")] 4000 =
      [str "File: empty.py\n\n\nFile: normal.py\nprint(hi)"] ∧
    str "File: empty.py" ∉
      chunk_content charCount [(str "empty.py", []), (str "normal.py", str "print(hi)")] 4000 := by
  exact ⟨by decide, by decide⟩

/-!
## Section-level view of the chunker

Each emitted chunk is built from "sections" (a display name and a body,
stemming from a source file).  Chunks appended directly by the line
loops consist of a single section and are emitted verbatim; chunks
flushed from the whole-file accumulator are the `\n\n`-separated
concatenation of the packed sections, trimmed by `strip`.  The mirror
functions below compute the sections each file contributes, following
the control structure of the corresponding loops literally; simulation
lemmas connect them to `chunk_content`.
-/

structure Sec where
  src : Str
  name : Str
  body : Str
  deriving DecidableEq, Repr

def secText (s : Sec) : Str := format_file_section s.name s.body

inductive CKind where
  | direct
  | flushed
  deriving DecidableEq, Repr

structure ChunkInfo where
  kind : CKind
  secs : List Sec
  deriving DecidableEq, Repr

/-- The accumulator text corresponding to a list of packed sections. -/
def renderAcc : List Sec → Str
  | [] => []
  | [s] => secText s
  | s :: rest => secText s ++ str "\n\n" ++ renderAcc rest

def infoText (ci : ChunkInfo) : Str :=
  match ci.kind with
  | CKind.direct => renderAcc ci.secs
  | CKind.flushed => strip (renderAcc ci.secs)

def dirInfo (s : Sec) : ChunkInfo := ⟨CKind.direct, [s]⟩

def infoWF (ci : ChunkInfo) : Prop :=
  ci.secs ≠ [] ∧
  (ci.kind = CKind.direct → ∃ s, ci.secs = [s]) ∧
  (ci.kind = CKind.flushed → ∀ s ∈ ci.secs, s.name = s.src)

/-- Sections produced by `split_long_line_go`. -/
def fragSecsGo (tok : Str → Nat) (filename : Str) (token_limit : Int)
    (lineLen : Nat) : Nat → Nat → Str → List Sec
  | 0, _, _ => []
  | fuel + 1, part_number, remaining =>
    if remaining = [] then []
    else
      let header := format_file_section (partName part_number filename) []
      let avail : Int := token_limit - (tok header : Int)
      let current_part := shrinkPartGo tok avail remaining (remaining.length + 1) remaining
      let rem2 := remaining.drop current_part.length
      let rem3 := if rem2.length = lineLen then rem2.drop 1 else rem2
      ⟨filename, partName part_number filename, current_part⟩ ::
        fragSecsGo tok filename token_limit lineLen fuel (part_number + 1) rem3

/-- Sections produced by `split_long_line`. -/
def fragSecs (tok : Str → Nat) (line filename : Str) (part_number : Nat)
    (token_limit : Int) : List Sec :=
  fragSecsGo tok filename token_limit line.length (line.length + 1) part_number line

/-- Sections produced by the whole-file fallback loop plus its trailing
flush. -/
def fbSecsGo (tok : Str → Nat) (token_limit : Int) (filename : Str) :
    List Str → Nat → List Str → Nat → List Sec
  | [], pn, pls, _ =>
    if pls ≠ [] then [⟨filename, partName pn filename, joinNl pls⟩] else []
  | line :: rest, pn, pls, cpt =>
    let header_tokens := tok (format_file_section (partName pn filename) [])
    let line_tokens := tok line
    if (cpt : Int) + (line_tokens : Int) + (header_tokens : Int) ≤ token_limit then
      fbSecsGo tok token_limit filename rest pn (pls ++ [line]) (cpt + line_tokens)
    else if pls ≠ [] then
      ⟨filename, partName pn filename, joinNl pls⟩ ::
        fbSecsGo tok token_limit filename rest (pn + 1) [line] line_tokens
    else
      ⟨filename, partName pn filename, line⟩ ::
        fbSecsGo tok token_limit filename rest (pn + 1) pls cpt

/-- Sections produced by the long-line loop plus its trailing flush. -/
def longSecsGo (tok : Str → Nat) (token_limit : Int) (filename : Str) :
    List Str → Nat → List Str → Nat → List Sec
  | [], pn, pls, _ =>
    if pls ≠ [] then [⟨filename, partName pn filename, joinNl pls⟩] else []
  | line :: rest, pn, pls, cpt =>
    let header_tokens := tok (format_file_section (partName pn filename) [])
    let line_tokens := tok line
    if (line_tokens : Int) > token_limit - (header_tokens : Int) then
      if pls ≠ [] then
        ⟨filename, partName pn filename, joinNl pls⟩ ::
          (fragSecs tok line filename (pn + 1) token_limit ++
            longSecsGo tok token_limit filename rest
              ((pn + 1) + (fragSecs tok line filename (pn + 1) token_limit).length) [] 0)
      else
        fragSecs tok line filename pn token_limit ++
          longSecsGo tok token_limit filename rest
            (pn + (fragSecs tok line filename pn token_limit).length) pls cpt
    else if (cpt : Int) + (line_tokens : Int) + (header_tokens : Int) ≤ token_limit then
      longSecsGo tok token_limit filename rest pn (pls ++ [line]) (cpt + line_tokens)
    else if pls ≠ [] then
      ⟨filename, partName pn filename, joinNl pls⟩ ::
        longSecsGo tok token_limit filename rest (pn + 1) [line] line_tokens
    else
      ⟨filename, partName pn filename, line⟩ ::
        longSecsGo tok token_limit filename rest (pn + 1) pls cpt

/-- The sections one file contributes to the output, by processing
mode. -/
def fileSecs (tok : Str → Nat) (token_limit : Int) (filename content : Str) :
    List Sec :=
  let lines := splitNl content
  if fileHasLongLines tok token_limit filename lines then
    longSecsGo tok token_limit filename lines 1 [] 0
  else
    let full_section := format_file_section filename content
    if (tok full_section : Int) ≤ token_limit then [⟨filename, filename, content⟩]
    else fbSecsGo tok token_limit filename lines 1 [] 0

/-!
## String helper lemmas
-/

theorem catStr_append (a b : List Str) : catStr (a ++ b) = catStr a ++ catStr b := by
  induction a with
  | nil => simp [catStr]
  | cons x xs ih => simp [catStr] at ih ⊢; simp [ih]

theorem filterNN_append (a b : Str) : filterNN (a ++ b) = filterNN a ++ filterNN b := by
  simp [filterNN, List.filter_append]

theorem filterNN_joinNl (xs : List Str) :
    filterNN (joinNl xs) = catStr (xs.map filterNN) := by
  induction xs with
  | nil => rfl
  | cons x rest ih =>
    cases rest with
    | nil => simp [joinNl, catStr]
    | cons y l =>
      show filterNN (x ++ '\n' :: joinNl (y :: l)) = _
      rw [filterNN_append]
      have h2 : filterNN ('\n' :: joinNl (y :: l)) = filterNN (joinNl (y :: l)) := by
        simp [filterNN]
      rw [h2, ih]
      simp [catStr]

theorem splitNl_ne_nil (s : Str) : splitNl s ≠ [] := by
  cases s with
  | nil => simp [splitNl]
  | cons c rest =>
    by_cases h : c == '\n'
    · simp [splitNl, h]
    · simp only [splitNl, h]
      cases hs : splitNl rest with
      | nil => simp
      | cons r rs => simp

theorem joinNl_splitNl (s : Str) : joinNl (splitNl s) = s := by
  induction s with
  | nil => rfl
  | cons c rest ih =>
    by_cases h : c == '\n'
    · have hc : c = '\n' := by simpa using h
      simp only [splitNl, h, if_pos]
      cases hs : splitNl rest with
      | nil => exact absurd hs (splitNl_ne_nil rest)
      | cons r rs =>
        show joinNl ([] :: r :: rs) = c :: rest
        show ([] : Str) ++ '\n' :: joinNl (r :: rs) = c :: rest
        rw [hs] at ih
        simp [hc, ih]
    · simp only [splitNl, h]
      cases hs : splitNl rest with
      | nil => exact absurd hs (splitNl_ne_nil rest)
      | cons r rs =>
        rw [hs] at ih
        cases rs with
        | nil =>
          show c :: r = c :: rest
          simpa [joinNl] using ih
        | cons q qs =>
          show (c :: r) ++ '\n' :: joinNl (q :: qs) = c :: rest
          simp only [joinNl] at ih
          simp [ih]

theorem filterNN_splitNl (s : Str) :
    catStr ((splitNl s).map filterNN) = filterNN s := by
  rw [← filterNN_joinNl, joinNl_splitNl]

theorem dropWhile_keeps (p : Char → Bool) :
    ∀ l : Str, (∃ c ∈ l, p c = false) → ∃ c ∈ l.dropWhile p, p c = false := by
  intro l
  induction l with
  | nil => intro h; obtain ⟨c, hc, _⟩ := h; cases hc
  | cons x xs ih =>
    intro h
    by_cases hx : p x = true
    · rw [List.dropWhile_cons, if_pos hx]
      apply ih
      obtain ⟨c, hc, hpc⟩ := h
      cases List.mem_cons.mp hc with
      | inl he =>
        rw [he] at hpc
        rw [hpc] at hx
        exact Bool.noConfusion hx
      | inr hm => exact ⟨c, hm, hpc⟩
    · rw [List.dropWhile_cons, if_neg hx]
      exact h

theorem strip_ne_nil (s : Str) (h : ∃ c ∈ s, isWs c = false) : strip s ≠ [] := by
  unfold strip
  obtain ⟨c1, hm1, hp1⟩ := dropWhile_keeps isWs s h
  have h2 : ∃ c ∈ (s.dropWhile isWs).reverse, isWs c = false :=
    ⟨c1, List.mem_reverse.mpr hm1, hp1⟩
  obtain ⟨c2, hm2, _⟩ := dropWhile_keeps isWs _ h2
  intro hc
  rw [List.reverse_eq_nil_iff] at hc
  rw [hc] at hm2
  cases hm2

/-!
## Section rendering lemmas
-/

theorem renderAcc_head (s : Sec) (rest : List Sec) :
    ∃ t, renderAcc (s :: rest) = 'F' :: t := by
  cases rest with
  | nil => exact ⟨_, rfl⟩
  | cons a l => exact ⟨_, rfl⟩

theorem renderAcc_eq_nil_iff (l : List Sec) : renderAcc l = [] ↔ l = [] := by
  cases l with
  | nil => simp [renderAcc]
  | cons s rest =>
    obtain ⟨t, ht⟩ := renderAcc_head s rest
    simp [ht]

theorem renderAcc_append_one (l : List Sec) (s : Sec) (h : l ≠ []) :
    renderAcc (l ++ [s]) = renderAcc l ++ str "\n\n" ++ secText s := by
  induction l with
  | nil => cases h rfl
  | cons a rest ih =>
    cases rest with
    | nil => rfl
    | cons b l2 =>
      have h2 := ih (by simp)
      show secText a ++ str "\n\n" ++ renderAcc ((b :: l2) ++ [s]) = _
      rw [h2]
      show _ = (secText a ++ str "\n\n" ++ renderAcc (b :: l2)) ++ str "\n\n" ++ secText s
      simp

theorem infoText_dirInfo (s : Sec) : infoText (dirInfo s) = secText s := rfl

theorem flush_rep (infos : List ChunkInfo) (accSecs : List Sec) (t : Nat) :
    flush_current_chunk ⟨infos.map infoText, renderAcc accSecs, t⟩ =
      if accSecs = [] then ⟨infos.map infoText, renderAcc accSecs, t⟩
      else ⟨(infos ++ [(⟨CKind.flushed, accSecs⟩ : ChunkInfo)]).map infoText, [], 0⟩ := by
  cases accSecs with
  | nil => simp [flush_current_chunk, renderAcc, strip]
  | cons s rest =>
    have hne : strip (renderAcc (s :: rest)) ≠ [] := by
      apply strip_ne_nil
      obtain ⟨t2, ht⟩ := renderAcc_head s rest
      exact ⟨'F', by rw [ht]; exact List.mem_cons_self 'F' t2, by decide⟩
    rw [if_neg (by simp)]
    unfold flush_current_chunk
    rw [if_pos hne]
    simp [infoText]

/-!
## Lemmas on the line splitter
-/

theorem take_ne_nil_of (l : Str) (k : Nat) (hk : 1 ≤ k) (hl : l ≠ []) :
    l.take k ≠ [] := by
  intro hc
  have h1 := congrArg List.length hc
  rw [List.length_take] at h1
  simp only [List.length_nil] at h1
  have h2 : 0 < l.length := List.length_pos.mpr hl
  rcases Nat.min_eq_zero_iff.mp h1 with h3 | h3 <;> omega

theorem shrinkPartGo_take (tok : Str → Nat) (avail : Int) (remaining : Str) :
    ∀ fuel cp, (∃ j, cp = remaining.take j) →
      ∃ j, shrinkPartGo tok avail remaining fuel cp = remaining.take j := by
  intro fuel
  induction fuel with
  | zero => intro cp h; exact h
  | succ n ih =>
    intro cp h
    simp only [shrinkPartGo]
    by_cases hg : (tok cp : Int) > avail
    · rw [if_pos hg]
      by_cases h2 : cp.take (bsearchGo tok avail cp (cp.length + 1) 0 cp.length) = []
      · rw [if_pos h2]
        exact ⟨max 1 (remaining.length / 2), rfl⟩
      · rw [if_neg h2]
        apply ih
        obtain ⟨j, hj⟩ := h
        refine ⟨min (bsearchGo tok avail cp (cp.length + 1) 0 cp.length) j, ?_⟩
        rw [hj, List.take_take]
    · rw [if_neg hg]
      exact h

theorem shrinkPartGo_ne_nil (tok : Str → Nat) (avail : Int) (remaining : Str)
    (hrem : remaining ≠ []) :
    ∀ fuel cp, cp ≠ [] → shrinkPartGo tok avail remaining fuel cp ≠ [] := by
  intro fuel
  induction fuel with
  | zero => intro cp h; exact h
  | succ n ih =>
    intro cp h
    simp only [shrinkPartGo]
    by_cases hg : (tok cp : Int) > avail
    · rw [if_pos hg]
      by_cases h2 : cp.take (bsearchGo tok avail cp (cp.length + 1) 0 cp.length) = []
      · rw [if_pos h2]
        exact take_ne_nil_of remaining _ (Nat.le_max_left 1 _) hrem
      · rw [if_neg h2]
        exact ih _ h2
    · rw [if_neg hg]
      exact h

theorem split_long_line_go_eq (tok : Str → Nat) (filename : Str) (tl : Int) (ll : Nat) :
    ∀ fuel pn rem, split_long_line_go tok filename tl ll fuel pn rem =
      (fragSecsGo tok filename tl ll fuel pn rem).map secText := by
  intro fuel
  induction fuel with
  | zero => intro pn rem; rfl
  | succ n ih =>
    intro pn rem
    by_cases h : rem = []
    · simp [split_long_line_go, fragSecsGo, h]
    · simp only [split_long_line_go, fragSecsGo, if_neg h, List.map_cons]
      refine congrArg₂ List.cons rfl ?_
      exact ih _ _

theorem fragSecsGo_bodies (tok : Str → Nat) (filename : Str) (tl : Int) (ll : Nat) :
    ∀ fuel pn (rem : Str), rem.length < fuel → rem.length ≤ ll →
      catStr ((fragSecsGo tok filename tl ll fuel pn rem).map Sec.body) = rem := by
  intro fuel
  induction fuel with
  | zero => intro pn rem h1 _; omega
  | succ n ih =>
    intro pn rem h1 h2
    by_cases h : rem = []
    · simp [fragSecsGo, h, catStr]
    · simp only [fragSecsGo, if_neg h, List.map_cons]
      set cp := shrinkPartGo tok
        (tl - (tok (format_file_section (partName pn filename) []) : Int))
        rem (rem.length + 1) rem with hcp
      obtain ⟨j, hj⟩ := shrinkPartGo_take tok
        (tl - (tok (format_file_section (partName pn filename) []) : Int))
        rem (rem.length + 1) rem ⟨rem.length, (List.take_length rem).symm⟩
      have hcne : cp ≠ [] := shrinkPartGo_ne_nil tok _ rem h (rem.length + 1) rem h
      have hcp_take : rem.take cp.length = cp := by
        rw [hcp, hj, List.length_take, ← List.take_take, List.take_length]
      have hsplit : cp ++ rem.drop cp.length = rem := by
        conv_rhs => rw [← List.take_append_drop cp.length rem]
        rw [hcp_take]
      have h1cp : 1 ≤ cp.length := List.length_pos.mpr hcne
      have hrpos : 0 < rem.length := List.length_pos.mpr h
      have hlen2 : (rem.drop cp.length).length = rem.length - cp.length :=
        List.length_drop _ _
      have hne_ll : ¬ ((rem.drop cp.length).length = ll) := by omega
      rw [if_neg hne_ll]
      show cp ++ catStr ((fragSecsGo tok filename tl ll n (pn + 1) (rem.drop cp.length)).map Sec.body) = rem
      rw [ih (pn + 1) (rem.drop cp.length) (by omega) (by omega)]
      exact hsplit

theorem fragSecsGo_src (tok : Str → Nat) (filename : Str) (tl : Int) (ll : Nat) :
    ∀ fuel pn rem, ∀ s ∈ fragSecsGo tok filename tl ll fuel pn rem, s.src = filename := by
  intro fuel
  induction fuel with
  | zero => intro pn rem s hs; exact absurd hs (by simp [fragSecsGo])
  | succ n ih =>
    intro pn rem s hs
    by_cases h : rem = []
    · rw [show fragSecsGo tok filename tl ll (n + 1) pn rem = [] from by
        simp [fragSecsGo, h]] at hs
      cases hs
    · simp only [fragSecsGo, if_neg h, List.mem_cons] at hs
      cases hs with
      | inl he => rw [he]
      | inr hm => exact ih _ _ s hm

theorem split_long_line_eq (tok : Str → Nat) (line filename : Str) (pn : Nat) (tl : Int) :
    split_long_line tok line filename pn tl = (fragSecs tok line filename pn tl).map secText :=
  split_long_line_go_eq tok filename tl line.length (line.length + 1) pn line

theorem fragSecs_bodies (tok : Str → Nat) (line filename : Str) (pn : Nat) (tl : Int) :
    catStr ((fragSecs tok line filename pn tl).map Sec.body) = line :=
  fragSecsGo_bodies tok filename tl line.length (line.length + 1) pn line
    (by omega) (le_refl _)

theorem fragSecs_src (tok : Str → Nat) (line filename : Str) (pn : Nat) (tl : Int) :
    ∀ s ∈ fragSecs tok line filename pn tl, s.src = filename :=
  fragSecsGo_src tok filename tl line.length (line.length + 1) pn line

theorem fragSecs_ne_nil (tok : Str → Nat) (line filename : Str) (pn : Nat) (tl : Int)
    (h : line ≠ []) : fragSecs tok line filename pn tl ≠ [] := by
  unfold fragSecs
  cases hl : line.length + 1 with
  | zero => omega
  | succ n => simp [fragSecsGo, h]

/-!
## Lemmas on the per-file section mirrors
-/

theorem catStr_cons (x : Str) (l : List Str) : catStr (x :: l) = x ++ catStr l := rfl

theorem catStr_nil : catStr ([] : List Str) = [] := rfl

theorem filterNN_catStr (xs : List Str) :
    filterNN (catStr xs) = catStr (xs.map filterNN) := by
  induction xs with
  | nil => rfl
  | cons x l ih =>
    show filterNN (x ++ catStr l) = _
    rw [filterNN_append, ih]
    rfl

theorem catStr_fragSecs_filter (tok : Str → Nat) (line filename : Str) (pn : Nat)
    (tl : Int) :
    catStr ((fragSecs tok line filename pn tl).map (fun s => filterNN s.body)) =
      filterNN line := by
  have h1 : (fragSecs tok line filename pn tl).map (fun s => filterNN s.body) =
      ((fragSecs tok line filename pn tl).map Sec.body).map filterNN := by
    rw [List.map_map]; rfl
  rw [h1, ← filterNN_catStr, fragSecs_bodies]

theorem fbSecsGo_src (tok : Str → Nat) (tl : Int) (k : Str) :
    ∀ lines pn pls cpt, ∀ s ∈ fbSecsGo tok tl k lines pn pls cpt, s.src = k := by
  intro lines
  induction lines with
  | nil =>
    intro pn pls cpt s hs
    simp only [fbSecsGo] at hs
    split_ifs at hs
    · rw [List.mem_singleton.mp hs]
    · cases hs
  | cons line rest ih =>
    intro pn pls cpt s hs
    simp only [fbSecsGo] at hs
    split_ifs at hs
    · exact ih _ _ _ s hs
    · cases List.mem_cons.mp hs with
      | inl he => rw [he]
      | inr hm => exact ih _ _ _ s hm
    · cases List.mem_cons.mp hs with
      | inl he => rw [he]
      | inr hm => exact ih _ _ _ s hm

theorem longSecsGo_src (tok : Str → Nat) (tl : Int) (k : Str) :
    ∀ lines pn pls cpt, ∀ s ∈ longSecsGo tok tl k lines pn pls cpt, s.src = k := by
  intro lines
  induction lines with
  | nil =>
    intro pn pls cpt s hs
    simp only [longSecsGo] at hs
    split_ifs at hs
    · rw [List.mem_singleton.mp hs]
    · cases hs
  | cons line rest ih =>
    intro pn pls cpt s hs
    simp only [longSecsGo] at hs
    split_ifs at hs
    · cases List.mem_cons.mp hs with
      | inl he => rw [he]
      | inr hm =>
        cases List.mem_append.mp hm with
        | inl hf => exact fragSecs_src tok line k _ tl s hf
        | inr hr => exact ih _ _ _ s hr
    · cases List.mem_append.mp hs with
      | inl hf => exact fragSecs_src tok line k _ tl s hf
      | inr hr => exact ih _ _ _ s hr
    · exact ih _ _ _ s hs
    · cases List.mem_cons.mp hs with
      | inl he => rw [he]
      | inr hm => exact ih _ _ _ s hm
    · cases List.mem_cons.mp hs with
      | inl he => rw [he]
      | inr hm => exact ih _ _ _ s hm

theorem fbSecsGo_ne_nil (tok : Str → Nat) (tl : Int) (k : Str) :
    ∀ lines pn pls cpt, (pls ≠ [] ∨ lines ≠ []) →
      fbSecsGo tok tl k lines pn pls cpt ≠ [] := by
  intro lines
  induction lines with
  | nil =>
    intro pn pls cpt h
    have hp : pls ≠ [] := by
      cases h with
      | inl h1 => exact h1
      | inr h2 => cases h2 rfl
    simp [fbSecsGo, hp]
  | cons line rest ih =>
    intro pn pls cpt _
    simp only [fbSecsGo]
    split_ifs
    · exact ih _ _ _ (Or.inl (by simp))
    · simp
    · simp

theorem longSecsGo_ne_nil (tok : Str → Nat) (tl : Int) (k : Str) :
    ∀ lines pn pls cpt, (pls ≠ [] ∨ ∃ ℓ ∈ lines, ℓ ≠ ([] : Str)) →
      longSecsGo tok tl k lines pn pls cpt ≠ [] := by
  intro lines
  induction lines with
  | nil =>
    intro pn pls cpt h
    have hp : pls ≠ [] := by
      cases h with
      | inl h1 => exact h1
      | inr h2 => obtain ⟨ℓ, hm, _⟩ := h2; cases hm
    simp [longSecsGo, hp]
  | cons line rest ih =>
    intro pn pls cpt h
    simp only [longSecsGo]
    split_ifs with h1 h2
    · simp
    · by_cases hline : line = []
      · intro hc
        rcases List.append_eq_nil.mp hc with ⟨_, hr⟩
        refine ih _ _ _ ?_ hr
        cases h with
        | inl hp => exact absurd hp h2
        | inr hex =>
          obtain ⟨ℓ, hm, hne⟩ := hex
          cases List.mem_cons.mp hm with
          | inl he => rw [he] at hne; exact absurd hline hne
          | inr hr2 => exact Or.inr ⟨ℓ, hr2, hne⟩
      · intro hc
        rcases List.append_eq_nil.mp hc with ⟨hf, _⟩
        exact fragSecs_ne_nil tok line k _ tl hline hf
    · exact ih _ _ _ (Or.inl (by simp))
    · simp
    · simp

theorem fbSecsGo_bodies (tok : Str → Nat) (tl : Int) (k : Str) :
    ∀ lines pn pls cpt,
      catStr ((fbSecsGo tok tl k lines pn pls cpt).map (fun s => filterNN s.body)) =
        catStr (pls.map filterNN) ++ catStr (lines.map filterNN) := by
  intro lines
  induction lines with
  | nil =>
    intro pn pls cpt
    simp only [fbSecsGo]
    split_ifs with hp
    · show filterNN (joinNl pls) ++ ([] : Str) = _
      rw [filterNN_joinNl]
      simp [catStr_nil]
    · rw [not_not.mp hp]
      simp [catStr_nil]
  | cons line rest ih =>
    intro pn pls cpt
    simp only [fbSecsGo]
    split_ifs with h1 h2
    · rw [ih]
      simp [List.map_append, catStr_append, catStr_cons, catStr_nil, List.append_assoc]
    · show filterNN (joinNl pls) ++
        catStr ((fbSecsGo tok tl k rest (pn + 1) [line] (tok line)).map
          (fun s => filterNN s.body)) = _
      rw [ih, filterNN_joinNl]
      simp [catStr_cons, catStr_nil, List.append_assoc]
    · rw [not_not.mp h2]
      show filterNN line ++
        catStr ((fbSecsGo tok tl k rest (pn + 1) [] cpt).map
          (fun s => filterNN s.body)) = _
      rw [ih]
      simp [catStr_cons, catStr_nil]

theorem longSecsGo_bodies (tok : Str → Nat) (tl : Int) (k : Str) :
    ∀ lines pn pls cpt,
      catStr ((longSecsGo tok tl k lines pn pls cpt).map (fun s => filterNN s.body)) =
        catStr (pls.map filterNN) ++ catStr (lines.map filterNN) := by
  intro lines
  induction lines with
  | nil =>
    intro pn pls cpt
    simp only [longSecsGo]
    split_ifs with hp
    · show filterNN (joinNl pls) ++ ([] : Str) = _
      rw [filterNN_joinNl]
      simp [catStr_nil]
    · rw [not_not.mp hp]
      simp [catStr_nil]
  | cons line rest ih =>
    intro pn pls cpt
    simp only [longSecsGo]
    split_ifs with h1 h2 h3 h4
    · show filterNN (joinNl pls) ++
        catStr (((fragSecs tok line k (pn + 1) tl ++
          longSecsGo tok tl k rest
            ((pn + 1) + (fragSecs tok line k (pn + 1) tl).length) [] 0).map
              (fun s => filterNN s.body))) = _
      rw [List.map_append, catStr_append, ih, catStr_fragSecs_filter, filterNN_joinNl]
      simp [catStr_cons, catStr_nil, List.append_assoc]
    · rw [not_not.mp h2]
      rw [List.map_append, catStr_append, ih, catStr_fragSecs_filter]
      simp [catStr_cons, catStr_nil]
    · rw [ih]
      simp [List.map_append, catStr_append, catStr_cons, catStr_nil, List.append_assoc]
    · show filterNN (joinNl pls) ++
        catStr ((longSecsGo tok tl k rest (pn + 1) [line] (tok line)).map
          (fun s => filterNN s.body)) = _
      rw [ih, filterNN_joinNl]
      simp [catStr_cons, catStr_nil, List.append_assoc]
    · rw [not_not.mp h4]
      show filterNN line ++
        catStr ((longSecsGo tok tl k rest (pn + 1) [] cpt).map
          (fun s => filterNN s.body)) = _
      rw [ih]
      simp [catStr_cons, catStr_nil]

/-!
## fileSecs facts
-/

theorem fileSecs_src (tok : Str → Nat) (tl : Int) (k c : Str) :
    ∀ s ∈ fileSecs tok tl k c, s.src = k := by
  intro s hs
  simp only [fileSecs] at hs
  split_ifs at hs with h1 h2
  · exact longSecsGo_src tok tl k _ _ _ _ s hs
  · rw [List.mem_singleton.mp hs]
  · exact fbSecsGo_src tok tl k _ _ _ _ s hs

theorem fileSecs_bodies (tok : Str → Nat) (tl : Int) (k c : Str) :
    catStr ((fileSecs tok tl k c).map (fun s => filterNN s.body)) = filterNN c := by
  simp only [fileSecs]
  split_ifs with h1 h2
  · rw [longSecsGo_bodies]
    simp [catStr_nil, filterNN_splitNl]
  · simp [catStr_cons, catStr_nil]
  · rw [fbSecsGo_bodies]
    simp [catStr_nil, filterNN_splitNl]

theorem fileSecs_ne_nil (tok : Str → Nat) (tl : Int) (k c : Str)
    (h : fileHasLongLines tok tl k (splitNl c) = false ∨
      ∃ ℓ ∈ splitNl c, ℓ ≠ ([] : Str)) :
    fileSecs tok tl k c ≠ [] := by
  simp only [fileSecs]
  split_ifs with h1 h2
  · apply longSecsGo_ne_nil
    right
    cases h with
    | inl hf => rw [h1] at hf; exact Bool.noConfusion hf
    | inr he => exact he
  · simp
  · exact fbSecsGo_ne_nil tok tl k _ _ _ _ (Or.inr (splitNl_ne_nil c))

/-!
## Simulation of the chunk loops against the section mirrors
-/

theorem append_step (infos : List ChunkInfo) (accSecs : List Sec) (t : Nat) (s : Sec) :
    ∃ t2,
      (⟨(flush_current_chunk ⟨infos.map infoText, renderAcc accSecs, t⟩).chunks ++ [secText s],
        (flush_current_chunk ⟨infos.map infoText, renderAcc accSecs, t⟩).current_chunk,
        (flush_current_chunk ⟨infos.map infoText, renderAcc accSecs, t⟩).current_chunk_tokens⟩ :
          ChunkState) =
      ⟨((infos ++ (if accSecs = [] then [] else [(⟨CKind.flushed, accSecs⟩ : ChunkInfo)])) ++
          [dirInfo s]).map infoText, renderAcc [], t2⟩ := by
  rw [flush_rep]
  by_cases ha : accSecs = []
  · refine ⟨t, ?_⟩
    rw [if_pos ha, if_pos ha, ha]
    simp [List.map_append, infoText_dirInfo, renderAcc]
  · refine ⟨0, ?_⟩
    rw [if_neg ha, if_neg ha]
    simp [List.map_append, infoText_dirInfo, renderAcc]

theorem fb_run_sim (tok : Str → Nat) (tl : Int) (k : Str) :
    ∀ (lines : List Str) (infos : List ChunkInfo) (accSecs : List Sec) (t pn : Nat)
      (pls : List Str) (cpt : Nat),
      (fbSecsGo tok tl k lines pn pls cpt = [] ∧
        partFinish k (fallbackLoop tok tl k
          ⟨⟨infos.map infoText, renderAcc accSecs, t⟩, pn, pls, cpt⟩ lines) =
          ⟨infos.map infoText, renderAcc accSecs, t⟩) ∨
      (fbSecsGo tok tl k lines pn pls cpt ≠ [] ∧
        ∃ t2, partFinish k (fallbackLoop tok tl k
          ⟨⟨infos.map infoText, renderAcc accSecs, t⟩, pn, pls, cpt⟩ lines) =
          ⟨((infos ++ (if accSecs = [] then [] else [(⟨CKind.flushed, accSecs⟩ : ChunkInfo)])) ++
            (fbSecsGo tok tl k lines pn pls cpt).map dirInfo).map infoText,
            renderAcc [], t2⟩) := by
  intro lines
  induction lines with
  | nil =>
    intro infos accSecs t pn pls cpt
    by_cases hp : pls ≠ []
    · right
      have hsecs : fbSecsGo tok tl k [] pn pls cpt =
          [⟨k, partName pn k, joinNl pls⟩] := by simp [fbSecsGo, hp]
      refine ⟨by simp [hsecs], ?_⟩
      have hrun : fallbackLoop tok tl k
          ⟨⟨infos.map infoText, renderAcc accSecs, t⟩, pn, pls, cpt⟩ [] =
          ⟨⟨infos.map infoText, renderAcc accSecs, t⟩, pn, pls, cpt⟩ := rfl
      rw [hrun, hsecs]
      unfold partFinish
      rw [if_pos hp]
      obtain ⟨t2, ht2⟩ := append_step infos accSecs t ⟨k, partName pn k, joinNl pls⟩
      exact ⟨t2, by simpa using ht2⟩
    · left
      refine ⟨by simp [fbSecsGo, hp], ?_⟩
      have hrun : fallbackLoop tok tl k
          ⟨⟨infos.map infoText, renderAcc accSecs, t⟩, pn, pls, cpt⟩ [] =
          ⟨⟨infos.map infoText, renderAcc accSecs, t⟩, pn, pls, cpt⟩ := rfl
      rw [hrun]
      unfold partFinish
      rw [if_neg hp]
  | cons line rest ih =>
    intro infos accSecs t pn pls cpt
    by_cases h1 : (cpt : Int) + (tok line : Int) +
        (tok (format_file_section (partName pn k) []) : Int) ≤ tl
    · have hstep : fallbackLoop tok tl k
          ⟨⟨infos.map infoText, renderAcc accSecs, t⟩, pn, pls, cpt⟩ (line :: rest) =
          fallbackLoop tok tl k
            ⟨⟨infos.map infoText, renderAcc accSecs, t⟩, pn, pls ++ [line],
              cpt + tok line⟩ rest := by
        simp only [fallbackLoop]
        rw [if_pos h1]
      have hsecs : fbSecsGo tok tl k (line :: rest) pn pls cpt =
          fbSecsGo tok tl k rest pn (pls ++ [line]) (cpt + tok line) := by
        simp only [fbSecsGo]
        rw [if_pos h1]
      rw [hstep, hsecs]
      exact ih infos accSecs t pn (pls ++ [line]) (cpt + tok line)
    · by_cases h2 : pls ≠ []
      · have hsec : format_file_section (partName pn k) (joinNl pls) =
            secText ⟨k, partName pn k, joinNl pls⟩ := rfl
        have hstep : fallbackLoop tok tl k
            ⟨⟨infos.map infoText, renderAcc accSecs, t⟩, pn, pls, cpt⟩ (line :: rest) =
            fallbackLoop tok tl k
              ⟨⟨(flush_current_chunk ⟨infos.map infoText, renderAcc accSecs, t⟩).chunks ++
                  [secText ⟨k, partName pn k, joinNl pls⟩],
                (flush_current_chunk ⟨infos.map infoText, renderAcc accSecs, t⟩).current_chunk,
                (flush_current_chunk ⟨infos.map infoText, renderAcc accSecs, t⟩).current_chunk_tokens⟩,
               pn + 1, [line], tok line⟩ rest := by
          simp only [fallbackLoop]
          rw [if_neg h1, if_pos h2, hsec]
        have hsecs : fbSecsGo tok tl k (line :: rest) pn pls cpt =
            ⟨k, partName pn k, joinNl pls⟩ ::
              fbSecsGo tok tl k rest (pn + 1) [line] (tok line) := by
          simp only [fbSecsGo]
          rw [if_neg h1, if_pos h2]
        obtain ⟨t3, ht3⟩ := append_step infos accSecs t ⟨k, partName pn k, joinNl pls⟩
        rw [hstep, hsecs, ht3]
        have hne : fbSecsGo tok tl k rest (pn + 1) [line] (tok line) ≠ [] :=
          fbSecsGo_ne_nil tok tl k rest (pn + 1) [line] (tok line) (Or.inl (by simp))
        rcases ih ((infos ++ (if accSecs = [] then [] else [(⟨CKind.flushed, accSecs⟩ : ChunkInfo)])) ++
            [dirInfo ⟨k, partName pn k, joinNl pls⟩]) [] t3 (pn + 1) [line] (tok line) with
          ⟨hnil, _⟩ | ⟨_, t4, hfin⟩
        · exact absurd hnil hne
        · right
          refine ⟨by simp, t4, ?_⟩
          rw [hfin]
          simp [List.map_append, List.append_assoc]
      · have hplse : pls = [] := not_not.mp h2
        subst hplse
        have hsec : format_file_section (partName pn k) line =
            secText ⟨k, partName pn k, line⟩ := rfl
        have hstep : fallbackLoop tok tl k
            ⟨⟨infos.map infoText, renderAcc accSecs, t⟩, pn, [], cpt⟩ (line :: rest) =
            fallbackLoop tok tl k
              ⟨⟨(flush_current_chunk ⟨infos.map infoText, renderAcc accSecs, t⟩).chunks ++
                  [secText ⟨k, partName pn k, line⟩],
                (flush_current_chunk ⟨infos.map infoText, renderAcc accSecs, t⟩).current_chunk,
                (flush_current_chunk ⟨infos.map infoText, renderAcc accSecs, t⟩).current_chunk_tokens⟩,
               pn + 1, [], cpt⟩ rest := by
          simp only [fallbackLoop]
          rw [if_neg h1, if_neg h2, hsec]
        have hsecs : fbSecsGo tok tl k (line :: rest) pn [] cpt =
            ⟨k, partName pn k, line⟩ :: fbSecsGo tok tl k rest (pn + 1) [] cpt := by
          simp only [fbSecsGo]
          rw [if_neg h1, if_neg h2]
        obtain ⟨t3, ht3⟩ := append_step infos accSecs t ⟨k, partName pn k, line⟩
        rw [hstep, hsecs, ht3]
        rcases ih ((infos ++ (if accSecs = [] then [] else [(⟨CKind.flushed, accSecs⟩ : ChunkInfo)])) ++
            [dirInfo ⟨k, partName pn k, line⟩]) [] t3 (pn + 1) [] cpt with
          ⟨hnil, hfin⟩ | ⟨_, t4, hfin⟩
        · right
          refine ⟨by simp, t3, ?_⟩
          rw [hfin, hnil]
          simp [List.map_append, List.append_assoc]
        · right
          refine ⟨by simp, t4, ?_⟩
          rw [hfin]
          simp [List.map_append, List.append_assoc]

theorem map_infoText_dirInfo (l : List Sec) :
    (l.map dirInfo).map infoText = l.map secText := by
  rw [List.map_map]; rfl

theorem infoText_comp_dirInfo : infoText ∘ dirInfo = secText :=
  funext fun _ => rfl

theorem long_run_sim (tok : Str → Nat) (tl : Int) (k : Str) :
    ∀ (lines : List Str) (infos : List ChunkInfo) (accSecs : List Sec) (t pn : Nat)
      (pls : List Str) (cpt : Nat),
      ∃ pre post t2,
        longSecsGo tok tl k lines pn pls cpt = pre ++ post ∧
        ((partFinish k (longLineLoop tok tl k
            ⟨⟨infos.map infoText, renderAcc accSecs, t⟩, pn, pls, cpt⟩ lines) =
            ⟨(infos ++ pre.map dirInfo).map infoText, renderAcc accSecs, t2⟩ ∧ post = [])
         ∨
         partFinish k (longLineLoop tok tl k
            ⟨⟨infos.map infoText, renderAcc accSecs, t⟩, pn, pls, cpt⟩ lines) =
            ⟨((infos ++ pre.map dirInfo ++
              (if accSecs = [] then [] else [(⟨CKind.flushed, accSecs⟩ : ChunkInfo)])) ++
              post.map dirInfo).map infoText, renderAcc [], t2⟩) := by
  intro lines
  induction lines with
  | nil =>
    intro infos accSecs t pn pls cpt
    by_cases hp : pls ≠ []
    · obtain ⟨t2, ht2⟩ := append_step infos accSecs t ⟨k, partName pn k, joinNl pls⟩
      refine ⟨[], [⟨k, partName pn k, joinNl pls⟩], t2,
        by simp [longSecsGo, hp], Or.inr ?_⟩
      have hrun : longLineLoop tok tl k
          ⟨⟨infos.map infoText, renderAcc accSecs, t⟩, pn, pls, cpt⟩ [] =
          ⟨⟨infos.map infoText, renderAcc accSecs, t⟩, pn, pls, cpt⟩ := rfl
      rw [hrun]
      unfold partFinish
      rw [if_pos hp]
      simpa [secText] using ht2
    · refine ⟨[], [], t, by simp [longSecsGo, hp], Or.inl ⟨?_, rfl⟩⟩
      have hrun : longLineLoop tok tl k
          ⟨⟨infos.map infoText, renderAcc accSecs, t⟩, pn, pls, cpt⟩ [] =
          ⟨⟨infos.map infoText, renderAcc accSecs, t⟩, pn, pls, cpt⟩ := rfl
      rw [hrun]
      unfold partFinish
      rw [if_neg hp]
      simp
  | cons line rest ih =>
    intro infos accSecs t pn pls cpt
    by_cases h1 : (tok line : Int) > tl -
        (tok (format_file_section (partName pn k) []) : Int)
    · by_cases h2 : pls ≠ []
      · -- flush the accumulated part, then split the long line
        have hsec : format_file_section (partName pn k) (joinNl pls) =
            secText ⟨k, partName pn k, joinNl pls⟩ := rfl
        obtain ⟨t3, ht3⟩ := append_step infos accSecs t ⟨k, partName pn k, joinNl pls⟩
        rw [ChunkState.mk.injEq] at ht3
        obtain ⟨hch, hcu, htk⟩ := ht3
        have hstep : longLineLoop tok tl k
            ⟨⟨infos.map infoText, renderAcc accSecs, t⟩, pn, pls, cpt⟩ (line :: rest) =
            longLineLoop tok tl k
              ⟨⟨(((infos ++ (if accSecs = [] then []
                    else [(⟨CKind.flushed, accSecs⟩ : ChunkInfo)])) ++
                  [dirInfo ⟨k, partName pn k, joinNl pls⟩]) ++
                  (fragSecs tok line k (pn + 1) tl).map dirInfo).map infoText,
                renderAcc [], t3⟩,
               (pn + 1) + (fragSecs tok line k (pn + 1) tl).length, [], 0⟩ rest := by
          simp only [longLineLoop]
          rw [if_pos h1, if_pos h2, hsec]
          rw [split_long_line_eq]
          rw [hch, hcu, htk]
          simp [List.map_append, map_infoText_dirInfo, infoText_dirInfo,
            infoText_comp_dirInfo, List.append_assoc]
        have hsecs : longSecsGo tok tl k (line :: rest) pn pls cpt =
            ⟨k, partName pn k, joinNl pls⟩ ::
              (fragSecs tok line k (pn + 1) tl ++
                longSecsGo tok tl k rest
                  ((pn + 1) + (fragSecs tok line k (pn + 1) tl).length) [] 0) := by
          simp only [longSecsGo]
          rw [if_pos h1, if_pos h2]
        obtain ⟨pre2, post2, t4, hpp, hfin⟩ := ih
          (((infos ++ (if accSecs = [] then []
              else [(⟨CKind.flushed, accSecs⟩ : ChunkInfo)])) ++
            [dirInfo ⟨k, partName pn k, joinNl pls⟩]) ++
            (fragSecs tok line k (pn + 1) tl).map dirInfo) [] t3
          ((pn + 1) + (fragSecs tok line k (pn + 1) tl).length) [] 0
        refine ⟨[], ⟨k, partName pn k, joinNl pls⟩ ::
          (fragSecs tok line k (pn + 1) tl ++ (pre2 ++ post2)), t4, ?_, Or.inr ?_⟩
        · rw [hsecs, hpp]
          simp
        · rw [hstep]
          cases hfin with
          | inl hl =>
            obtain ⟨hfin2, hpost2⟩ := hl
            rw [hfin2]
            rw [hpost2] at hpp ⊢
            simp [List.map_append, List.append_assoc]
          | inr hr =>
            rw [hr]
            simp [List.map_append, List.append_assoc]
      · -- split the long line with no accumulated part
        have hple : pls = [] := not_not.mp h2
        subst hple
        have hstep : longLineLoop tok tl k
            ⟨⟨infos.map infoText, renderAcc accSecs, t⟩, pn, [], cpt⟩ (line :: rest) =
            longLineLoop tok tl k
              ⟨⟨(infos ++ (fragSecs tok line k pn tl).map dirInfo).map infoText,
                renderAcc accSecs, t⟩,
               pn + (fragSecs tok line k pn tl).length, [], cpt⟩ rest := by
          simp only [longLineLoop]
          rw [if_pos h1, if_neg h2]
          rw [split_long_line_eq]
          simp [List.map_append, map_infoText_dirInfo, infoText_dirInfo,
            infoText_comp_dirInfo, List.append_assoc]
        have hsecs : longSecsGo tok tl k (line :: rest) pn [] cpt =
            fragSecs tok line k pn tl ++
              longSecsGo tok tl k rest (pn + (fragSecs tok line k pn tl).length) [] cpt := by
          simp only [longSecsGo]
          rw [if_pos h1, if_neg h2]
        obtain ⟨pre2, post2, t4, hpp, hfin⟩ := ih
          (infos ++ (fragSecs tok line k pn tl).map dirInfo) accSecs t
          (pn + (fragSecs tok line k pn tl).length) [] cpt
        refine ⟨fragSecs tok line k pn tl ++ pre2, post2, t4, ?_, ?_⟩
        · rw [hsecs, hpp]
          simp [List.append_assoc]
        · rw [hstep]
          cases hfin with
          | inl hl =>
            obtain ⟨hfin2, hpost2⟩ := hl
            left
            refine ⟨?_, hpost2⟩
            rw [hfin2]
            simp [List.map_append, List.append_assoc]
          | inr hr =>
            right
            rw [hr]
            simp [List.map_append, List.append_assoc]
    · by_cases h2 : (cpt : Int) + (tok line : Int) +
          (tok (format_file_section (partName pn k) []) : Int) ≤ tl
      · -- accumulate the line
        have hstep : longLineLoop tok tl k
            ⟨⟨infos.map infoText, renderAcc accSecs, t⟩, pn, pls, cpt⟩ (line :: rest) =
            longLineLoop tok tl k
              ⟨⟨infos.map infoText, renderAcc accSecs, t⟩, pn, pls ++ [line],
                cpt + tok line⟩ rest := by
          simp only [longLineLoop]
          rw [if_neg h1, if_pos h2]
        have hsecs : longSecsGo tok tl k (line :: rest) pn pls cpt =
            longSecsGo tok tl k rest pn (pls ++ [line]) (cpt + tok line) := by
          simp only [longSecsGo]
          rw [if_neg h1, if_pos h2]
        rw [hstep, hsecs]
        exact ih infos accSecs t pn (pls ++ [line]) (cpt + tok line)
      · by_cases h3 : pls ≠ []
        · -- flush the accumulated part, restart the part with this line
          have hsec : format_file_section (partName pn k) (joinNl pls) =
              secText ⟨k, partName pn k, joinNl pls⟩ := rfl
          obtain ⟨t3, ht3⟩ := append_step infos accSecs t ⟨k, partName pn k, joinNl pls⟩
          rw [ChunkState.mk.injEq] at ht3
          obtain ⟨hch, hcu, htk⟩ := ht3
          have hstep : longLineLoop tok tl k
              ⟨⟨infos.map infoText, renderAcc accSecs, t⟩, pn, pls, cpt⟩ (line :: rest) =
              longLineLoop tok tl k
                ⟨⟨((infos ++ (if accSecs = [] then []
                      else [(⟨CKind.flushed, accSecs⟩ : ChunkInfo)])) ++
                    [dirInfo ⟨k, partName pn k, joinNl pls⟩]).map infoText,
                  renderAcc [], t3⟩,
                 pn + 1, [line], tok line⟩ rest := by
            simp only [longLineLoop]
            rw [if_neg h1, if_neg h2, if_pos h3, hsec, hch, hcu, htk]
          have hsecs : longSecsGo tok tl k (line :: rest) pn pls cpt =
              ⟨k, partName pn k, joinNl pls⟩ ::
                longSecsGo tok tl k rest (pn + 1) [line] (tok line) := by
            simp only [longSecsGo]
            rw [if_neg h1, if_neg h2, if_pos h3]
          obtain ⟨pre2, post2, t4, hpp, hfin⟩ := ih
            ((infos ++ (if accSecs = [] then []
                else [(⟨CKind.flushed, accSecs⟩ : ChunkInfo)])) ++
              [dirInfo ⟨k, partName pn k, joinNl pls⟩]) [] t3 (pn + 1) [line] (tok line)
          refine ⟨[], ⟨k, partName pn k, joinNl pls⟩ :: (pre2 ++ post2), t4, ?_, Or.inr ?_⟩
          · rw [hsecs, hpp]
            simp
          · rw [hstep]
            cases hfin with
            | inl hl =>
              obtain ⟨hfin2, hpost2⟩ := hl
              rw [hfin2]
              rw [hpost2] at hpp ⊢
              simp [List.map_append, List.append_assoc]
            | inr hr =>
              rw [hr]
              simp [List.map_append, List.append_assoc]
        · -- the line alone becomes its own part
          have hple : pls = [] := not_not.mp h3
          subst hple
          have hsec : format_file_section (partName pn k) line =
              secText ⟨k, partName pn k, line⟩ := rfl
          obtain ⟨t3, ht3⟩ := append_step infos accSecs t ⟨k, partName pn k, line⟩
          rw [ChunkState.mk.injEq] at ht3
          obtain ⟨hch, hcu, htk⟩ := ht3
          have hstep : longLineLoop tok tl k
              ⟨⟨infos.map infoText, renderAcc accSecs, t⟩, pn, [], cpt⟩ (line :: rest) =
              longLineLoop tok tl k
                ⟨⟨((infos ++ (if accSecs = [] then []
                      else [(⟨CKind.flushed, accSecs⟩ : ChunkInfo)])) ++
                    [dirInfo ⟨k, partName pn k, line⟩]).map infoText,
                  renderAcc [], t3⟩,
                 pn + 1, [], cpt⟩ rest := by
            simp only [longLineLoop]
            rw [if_neg h1, if_neg h2, if_neg h3, hsec, hch, hcu, htk]
          have hsecs : longSecsGo tok tl k (line :: rest) pn [] cpt =
              ⟨k, partName pn k, line⟩ ::
                longSecsGo tok tl k rest (pn + 1) [] cpt := by
            simp only [longSecsGo]
            rw [if_neg h1, if_neg h2, if_neg h3]
          obtain ⟨pre2, post2, t4, hpp, hfin⟩ := ih
            ((infos ++ (if accSecs = [] then []
                else [(⟨CKind.flushed, accSecs⟩ : ChunkInfo)])) ++
              [dirInfo ⟨k, partName pn k, line⟩]) [] t3 (pn + 1) [] cpt
          refine ⟨[], ⟨k, partName pn k, line⟩ :: (pre2 ++ post2), t4, ?_, Or.inr ?_⟩
          · rw [hsecs, hpp]
            simp
          · rw [hstep]
            cases hfin with
            | inl hl =>
              obtain ⟨hfin2, hpost2⟩ := hl
              rw [hfin2]
              rw [hpost2] at hpp ⊢
              simp [List.map_append, List.append_assoc]
            | inr hr =>
              rw [hr]
              simp [List.map_append, List.append_assoc]

/-!
## Filter helpers over section sources
-/

theorem filter_src_ne (l : List Sec) (k q : Str) (hl : ∀ s ∈ l, s.src = k)
    (hq : q ≠ k) : l.filter (fun s => s.src == q) = [] := by
  rw [List.filter_eq_nil_iff]
  intro s hs
  rw [hl s hs]
  simp only [beq_iff_eq]
  intro hc
  exact hq hc.symm

theorem filter_src_all (l : List Sec) (k : Str) (hl : ∀ s ∈ l, s.src = k) :
    l.filter (fun s => s.src == k) = l := by
  apply List.filter_eq_self.mpr
  intro s hs
  rw [hl s hs]
  simp

theorem filter_src_none (l : List Sec) (k : Str) (hl : ∀ s ∈ l, ¬ s.src = k) :
    l.filter (fun s => s.src == k) = [] := by
  rw [List.filter_eq_nil_iff]
  intro s hs
  simp only [beq_iff_eq]
  exact hl s hs

theorem flatMap_dirInfo (l : List Sec) :
    (l.map dirInfo).flatMap ChunkInfo.secs = l := by
  induction l with
  | nil => rfl
  | cons s r ih => simp [List.flatMap_cons, dirInfo, ih]

theorem processFile_sim (tok : Str → Nat) (tl : Int) (k c : Str)
    (infos : List ChunkInfo) (accSecs : List Sec) (t : Nat) :
    ∃ (infos2 : List ChunkInfo) (accSecs2 : List Sec) (t2 : Nat),
      processFile tok tl ⟨infos.map infoText, renderAcc accSecs, t⟩ k c =
        ⟨infos2.map infoText, renderAcc accSecs2, t2⟩ ∧
      (∀ ci ∈ infos2, ci ∈ infos ∨
        (ci = (⟨CKind.flushed, accSecs⟩ : ChunkInfo) ∧ accSecs ≠ []) ∨
        ∃ s ∈ fileSecs tok tl k c, ci = dirInfo s) ∧
      (∀ s ∈ accSecs2, s ∈ accSecs ∨ s = (⟨k, k, c⟩ : Sec)) ∧
      (∀ q : Str, q ≠ k →
        (infos2.flatMap ChunkInfo.secs ++ accSecs2).filter (fun s => s.src == q) =
          (infos.flatMap ChunkInfo.secs ++ accSecs).filter (fun s => s.src == q)) ∧
      ((∀ s ∈ infos.flatMap ChunkInfo.secs ++ accSecs, ¬ s.src = k) →
        (infos2.flatMap ChunkInfo.secs ++ accSecs2).filter (fun s => s.src == k) =
          fileSecs tok tl k c) := by
  by_cases hlong : fileHasLongLines tok tl k (splitNl c) = true
  · -- long-line mode
    have hfs : fileSecs tok tl k c = longSecsGo tok tl k (splitNl c) 1 [] 0 := by
      simp only [fileSecs]
      rw [if_pos hlong]
    have hpf : processFile tok tl ⟨infos.map infoText, renderAcc accSecs, t⟩ k c =
        partFinish k (longLineLoop tok tl k
          ⟨⟨infos.map infoText, renderAcc accSecs, t⟩, 1, [], 0⟩ (splitNl c)) := by
      simp only [processFile]
      rw [if_pos hlong]
    obtain ⟨pre, post, t2, hpp, hfin⟩ :=
      long_run_sim tok tl k (splitNl c) infos accSecs t 1 [] 0
    have hsrc_pre : ∀ s ∈ pre, s.src = k := fun s hs =>
      longSecsGo_src tok tl k (splitNl c) 1 [] 0 s
        (by rw [hpp]; exact List.mem_append.mpr (Or.inl hs))
    have hsrc_post : ∀ s ∈ post, s.src = k := fun s hs =>
      longSecsGo_src tok tl k (splitNl c) 1 [] 0 s
        (by rw [hpp]; exact List.mem_append.mpr (Or.inr hs))
    cases hfin with
    | inl hl =>
      obtain ⟨hfin2, hpost⟩ := hl
      refine ⟨infos ++ pre.map dirInfo, accSecs, t2, by rw [hpf, hfin2], ?_, ?_, ?_, ?_⟩
      · intro ci hci
        rcases List.mem_append.mp hci with h | h
        · exact Or.inl h
        · right; right
          obtain ⟨s, hs, hse⟩ := List.mem_map.mp h
          exact ⟨s, by rw [hfs, hpp]; exact List.mem_append.mpr (Or.inl hs), hse.symm⟩
      · intro s hs
        exact Or.inl hs
      · intro q hq
        rw [List.flatMap_append, flatMap_dirInfo]
        simp [List.filter_append, filter_src_ne pre k q hsrc_pre hq]
      · intro hnone
        rw [List.flatMap_append, flatMap_dirInfo, hfs, hpp, hpost]
        have hA : (infos.flatMap ChunkInfo.secs).filter (fun s => s.src == k) = [] :=
          filter_src_none _ k (fun s hs => hnone s (List.mem_append.mpr (Or.inl hs)))
        have hAc : accSecs.filter (fun s => s.src == k) = [] :=
          filter_src_none _ k (fun s hs => hnone s (List.mem_append.mpr (Or.inr hs)))
        simp [List.filter_append, hA, hAc, filter_src_all pre k hsrc_pre]
    | inr hr =>
      have hmem_i : ∀ ci ∈ ((infos ++ pre.map dirInfo ++
          (if accSecs = [] then [] else [(⟨CKind.flushed, accSecs⟩ : ChunkInfo)])) ++
          post.map dirInfo), ci ∈ infos ∨
          (ci = (⟨CKind.flushed, accSecs⟩ : ChunkInfo) ∧ accSecs ≠ []) ∨
          ∃ s ∈ fileSecs tok tl k c, ci = dirInfo s := by
        intro ci hci
        rcases List.mem_append.mp hci with h | h
        · rcases List.mem_append.mp h with h2 | h2
          · rcases List.mem_append.mp h2 with h3 | h3
            · exact Or.inl h3
            · right; right
              obtain ⟨s, hs, hse⟩ := List.mem_map.mp h3
              exact ⟨s, by rw [hfs, hpp]; exact List.mem_append.mpr (Or.inl hs), hse.symm⟩
          · by_cases ha : accSecs = []
            · rw [if_pos ha] at h2
              cases h2
            · rw [if_neg ha] at h2
              exact Or.inr (Or.inl ⟨List.mem_singleton.mp h2, ha⟩)
        · right; right
          obtain ⟨s, hs, hse⟩ := List.mem_map.mp h
          exact ⟨s, by rw [hfs, hpp]; exact List.mem_append.mpr (Or.inr hs), hse.symm⟩
      have hflat : ((infos ++ pre.map dirInfo ++
          (if accSecs = [] then [] else [(⟨CKind.flushed, accSecs⟩ : ChunkInfo)])) ++
          post.map dirInfo).flatMap ChunkInfo.secs =
          ((infos.flatMap ChunkInfo.secs ++ pre) ++
            (if accSecs = [] then [] else accSecs)) ++ post := by
        by_cases ha : accSecs = []
        · rw [if_pos ha, if_pos ha]
          simp [List.flatMap_append, flatMap_dirInfo]
        · rw [if_neg ha, if_neg ha]
          simp [List.flatMap_append, flatMap_dirInfo]
      refine ⟨(infos ++ pre.map dirInfo ++
          (if accSecs = [] then [] else [(⟨CKind.flushed, accSecs⟩ : ChunkInfo)])) ++
          post.map dirInfo, [], t2, by rw [hpf, hr], hmem_i, ?_, ?_, ?_⟩
      · intro s hs
        cases hs
      · intro q hq
        rw [List.append_nil, hflat]
        have hacc : (if accSecs = [] then [] else accSecs).filter
            (fun s => s.src == q) = accSecs.filter (fun s => s.src == q) := by
          by_cases ha : accSecs = []
          · rw [if_pos ha, ha]
          · rw [if_neg ha]
        simp [List.filter_append, filter_src_ne pre k q hsrc_pre hq,
          filter_src_ne post k q hsrc_post hq, hacc]
      · intro hnone
        rw [List.append_nil, hflat, hfs, hpp]
        have hA : (infos.flatMap ChunkInfo.secs).filter (fun s => s.src == k) = [] :=
          filter_src_none _ k (fun s hs => hnone s (List.mem_append.mpr (Or.inl hs)))
        have hAc : accSecs.filter (fun s => s.src == k) = [] :=
          filter_src_none _ k (fun s hs => hnone s (List.mem_append.mpr (Or.inr hs)))
        have hacc : (if accSecs = [] then [] else accSecs).filter
            (fun s => s.src == k) = [] := by
          by_cases ha : accSecs = []
          · rw [if_pos ha]; rfl
          · rw [if_neg ha]; exact hAc
        simp [List.filter_append, hA, hacc, filter_src_all pre k hsrc_pre,
          filter_src_all post k hsrc_post]
  · -- no long lines
    have hfull : format_file_section k c = secText (⟨k, k, c⟩ : Sec) := rfl
    by_cases hfit : (tok (format_file_section k c) : Int) ≤ tl
    · -- whole file fits
      have hfs : fileSecs tok tl k c = [(⟨k, k, c⟩ : Sec)] := by
        simp only [fileSecs]
        rw [if_neg hlong, if_pos hfit]
      by_cases hcur : renderAcc accSecs = []
      · -- empty accumulator: start a new one with this section
        have hacc0 : accSecs = [] := (renderAcc_eq_nil_iff accSecs).mp hcur
        have hpf : processFile tok tl ⟨infos.map infoText, renderAcc accSecs, t⟩ k c =
            ⟨infos.map infoText, renderAcc [(⟨k, k, c⟩ : Sec)],
              tok (format_file_section k c)⟩ := by
          simp only [processFile]
          rw [if_neg hlong, if_pos hfit, if_neg (by simpa using hcur)]
          rfl
        refine ⟨infos, [(⟨k, k, c⟩ : Sec)], tok (format_file_section k c), hpf,
          ?_, ?_, ?_, ?_⟩
        · intro ci hci
          exact Or.inl hci
        · intro s hs
          exact Or.inr (List.mem_singleton.mp hs)
        · intro q hq
          rw [hacc0]
          have hk : ([(⟨k, k, c⟩ : Sec)]).filter (fun s => s.src == q) = [] :=
            filter_src_ne _ k q (by intro s hs; rw [List.mem_singleton.mp hs]) hq
          simp [List.filter_append, hk]
        · intro hnone
          rw [hfs]
          have hA : (infos.flatMap ChunkInfo.secs).filter (fun s => s.src == k) = [] :=
            filter_src_none _ k (fun s hs => hnone s (List.mem_append.mpr (Or.inl hs)))
          have hk : ([(⟨k, k, c⟩ : Sec)]).filter (fun s => s.src == k) =
              [(⟨k, k, c⟩ : Sec)] :=
            filter_src_all _ k (by intro s hs; rw [List.mem_singleton.mp hs])
          simp [List.filter_append, hA, hk]
      · -- non-empty accumulator: try to pack
        have hacc1 : accSecs ≠ [] := fun hc =>
          hcur (by rw [hc]; rfl)
        by_cases hcand : (tok (renderAcc accSecs ++ str "\n\n" ++
            format_file_section k c) : Int) ≤ tl
        · -- packed into the current chunk
          have hpf : processFile tok tl ⟨infos.map infoText, renderAcc accSecs, t⟩ k c =
              ⟨infos.map infoText, renderAcc (accSecs ++ [(⟨k, k, c⟩ : Sec)]),
                tok (renderAcc accSecs ++ str "\n\n" ++ format_file_section k c)⟩ := by
            simp only [processFile]
            rw [if_neg hlong, if_pos hfit, if_pos hcur, if_pos hcand,
              renderAcc_append_one accSecs ⟨k, k, c⟩ hacc1]
            rfl
          refine ⟨infos, accSecs ++ [(⟨k, k, c⟩ : Sec)],
            tok (renderAcc accSecs ++ str "\n\n" ++ format_file_section k c), hpf,
            ?_, ?_, ?_, ?_⟩
          · intro ci hci
            exact Or.inl hci
          · intro s hs
            rcases List.mem_append.mp hs with h | h
            · exact Or.inl h
            · exact Or.inr (List.mem_singleton.mp h)
          · intro q hq
            have hk : ([(⟨k, k, c⟩ : Sec)]).filter (fun s => s.src == q) = [] :=
              filter_src_ne _ k q (by intro s hs; rw [List.mem_singleton.mp hs]) hq
            simp [List.filter_append, hk]
          · intro hnone
            rw [hfs]
            have hA : (infos.flatMap ChunkInfo.secs).filter (fun s => s.src == k) = [] :=
              filter_src_none _ k (fun s hs => hnone s (List.mem_append.mpr (Or.inl hs)))
            have hAc : accSecs.filter (fun s => s.src == k) = [] :=
              filter_src_none _ k (fun s hs => hnone s (List.mem_append.mpr (Or.inr hs)))
            have hk : ([(⟨k, k, c⟩ : Sec)]).filter (fun s => s.src == k) =
                [(⟨k, k, c⟩ : Sec)] :=
              filter_src_all _ k (by intro s hs; rw [List.mem_singleton.mp hs])
            simp [List.filter_append, hA, hAc, hk]
        · -- flush the accumulator, start a new one with this section
          have hpf : processFile tok tl ⟨infos.map infoText, renderAcc accSecs, t⟩ k c =
              ⟨(infos ++ [(⟨CKind.flushed, accSecs⟩ : ChunkInfo)]).map infoText,
                renderAcc [(⟨k, k, c⟩ : Sec)], tok (format_file_section k c)⟩ := by
            simp only [processFile]
            rw [if_neg hlong, if_pos hfit, if_pos hcur, if_neg hcand, flush_rep,
              if_neg hacc1]
            rfl
          refine ⟨infos ++ [(⟨CKind.flushed, accSecs⟩ : ChunkInfo)],
            [(⟨k, k, c⟩ : Sec)], tok (format_file_section k c), hpf, ?_, ?_, ?_, ?_⟩
          · intro ci hci
            rcases List.mem_append.mp hci with h | h
            · exact Or.inl h
            · exact Or.inr (Or.inl ⟨List.mem_singleton.mp h, hacc1⟩)
          · intro s hs
            exact Or.inr (List.mem_singleton.mp hs)
          · intro q hq
            have hk : ([(⟨k, k, c⟩ : Sec)]).filter (fun s => s.src == q) = [] :=
              filter_src_ne _ k q (by intro s hs; rw [List.mem_singleton.mp hs]) hq
            simp [List.flatMap_append, List.filter_append, hk]
          · intro hnone
            rw [hfs]
            have hA : (infos.flatMap ChunkInfo.secs).filter (fun s => s.src == k) = [] :=
              filter_src_none _ k (fun s hs => hnone s (List.mem_append.mpr (Or.inl hs)))
            have hAc : accSecs.filter (fun s => s.src == k) = [] :=
              filter_src_none _ k (fun s hs => hnone s (List.mem_append.mpr (Or.inr hs)))
            have hk : ([(⟨k, k, c⟩ : Sec)]).filter (fun s => s.src == k) =
                [(⟨k, k, c⟩ : Sec)] :=
              filter_src_all _ k (by intro s hs; rw [List.mem_singleton.mp hs])
            simp [List.flatMap_append, List.filter_append, hA, hAc, hk]
    · -- whole section exceeds the limit: line-by-line fallback
      have hfs : fileSecs tok tl k c = fbSecsGo tok tl k (splitNl c) 1 [] 0 := by
        simp only [fileSecs]
        rw [if_neg hlong, if_neg hfit]
      have hpf : processFile tok tl ⟨infos.map infoText, renderAcc accSecs, t⟩ k c =
          partFinish k (fallbackLoop tok tl k
            ⟨⟨infos.map infoText, renderAcc accSecs, t⟩, 1, [], 0⟩ (splitNl c)) := by
        simp only [processFile]
        rw [if_neg hlong, if_neg hfit]
      have hsrc : ∀ s ∈ fbSecsGo tok tl k (splitNl c) 1 [] 0, s.src = k :=
        fbSecsGo_src tok tl k (splitNl c) 1 [] 0
      rcases fb_run_sim tok tl k (splitNl c) infos accSecs t 1 [] 0 with
        ⟨hnil, _⟩ | ⟨_, t2, hfin⟩
      · exact absurd hnil
          (fbSecsGo_ne_nil tok tl k (splitNl c) 1 [] 0 (Or.inr (splitNl_ne_nil c)))
      · have hflat : ((infos ++ (if accSecs = [] then []
            else [(⟨CKind.flushed, accSecs⟩ : ChunkInfo)])) ++
            (fbSecsGo tok tl k (splitNl c) 1 [] 0).map dirInfo).flatMap ChunkInfo.secs =
            (infos.flatMap ChunkInfo.secs ++
              (if accSecs = [] then [] else accSecs)) ++
              fbSecsGo tok tl k (splitNl c) 1 [] 0 := by
          by_cases ha : accSecs = []
          · rw [if_pos ha, if_pos ha]
            simp [List.flatMap_append, flatMap_dirInfo]
          · rw [if_neg ha, if_neg ha]
            simp [List.flatMap_append, flatMap_dirInfo]
        refine ⟨(infos ++ (if accSecs = [] then []
            else [(⟨CKind.flushed, accSecs⟩ : ChunkInfo)])) ++
            (fbSecsGo tok tl k (splitNl c) 1 [] 0).map dirInfo, [], t2,
          by rw [hpf, hfin], ?_, ?_, ?_, ?_⟩
        · intro ci hci
          rcases List.mem_append.mp hci with h | h
          · rcases List.mem_append.mp h with h2 | h2
            · exact Or.inl h2
            · by_cases ha : accSecs = []
              · rw [if_pos ha] at h2
                cases h2
              · rw [if_neg ha] at h2
                exact Or.inr (Or.inl ⟨List.mem_singleton.mp h2, ha⟩)
          · right; right
            obtain ⟨s, hs, hse⟩ := List.mem_map.mp h
            exact ⟨s, by rw [hfs]; exact hs, hse.symm⟩
        · intro s hs
          cases hs
        · intro q hq
          rw [List.append_nil, hflat]
          have hacc : (if accSecs = [] then [] else accSecs).filter
              (fun s => s.src == q) = accSecs.filter (fun s => s.src == q) := by
            by_cases ha : accSecs = []
            · rw [if_pos ha, ha]
            · rw [if_neg ha]
          simp [List.filter_append, hacc,
            filter_src_ne (fbSecsGo tok tl k (splitNl c) 1 [] 0) k q hsrc hq]
        · intro hnone
          rw [List.append_nil, hflat, hfs]
          have hA : (infos.flatMap ChunkInfo.secs).filter (fun s => s.src == k) = [] :=
            filter_src_none _ k (fun s hs => hnone s (List.mem_append.mpr (Or.inl hs)))
          have hAc : accSecs.filter (fun s => s.src == k) = [] :=
            filter_src_none _ k (fun s hs => hnone s (List.mem_append.mpr (Or.inr hs)))
          have hacc : (if accSecs = [] then [] else accSecs).filter
              (fun s => s.src == k) = [] := by
            by_cases ha : accSecs = []
            · rw [if_pos ha]; rfl
            · rw [if_neg ha]; exact hAc
          simp [List.filter_append, hA, hacc,
            filter_src_all (fbSecsGo tok tl k (splitNl c) 1 [] 0) k hsrc]

theorem lookupD_eq (m : List (Str × Str)) (hnd : (m.map Prod.fst).Nodup)
    (p : Str × Str) (hp : p ∈ m) : lookupD m p.1 = p.2 := by
  induction m with
  | nil => cases hp
  | cons q rest ih =>
    rcases List.mem_cons.mp hp with he | hm
    · subst he
      simp [lookupD, List.lookup]
    · have hk : p.1 ≠ q.1 := by
        intro hc
        have h1 : q.1 ∉ rest.map Prod.fst := (List.nodup_cons.mp (by simpa using hnd)).1
        exact h1 (hc ▸ List.mem_map.mpr ⟨p, hm, rfl⟩)
      have hnd2 : (rest.map Prod.fst).Nodup := (List.nodup_cons.mp (by simpa using hnd)).2
      have hbeq : (p.1 == q.1) = false := beq_eq_false_iff_ne.mpr hk
      simp only [lookupD, List.lookup, hbeq]
      exact ih hnd2 hm

theorem chunkFold_master (tok : Str → Nat) (tl : Int) (m : List (Str × Str)) :
    ∀ (ks : List Str) (infos : List ChunkInfo) (accSecs : List Sec) (t : Nat)
      (D : List Str),
      (∀ j ∈ ks, j ∉ D) → ks.Nodup →
      (∀ ci ∈ infos, infoWF ci) →
      (∀ s ∈ accSecs, s.name = s.src) →
      (∀ s ∈ infos.flatMap ChunkInfo.secs ++ accSecs, s.src ∈ D) →
      (∀ j ∈ D, (infos.flatMap ChunkInfo.secs ++ accSecs).filter
        (fun s => s.src == j) = fileSecs tok tl j (lookupD m j)) →
      ∃ (infos2 : List ChunkInfo) (accSecs2 : List Sec) (t2 : Nat),
        ks.foldl (fun st j => processFile tok tl st j (lookupD m j))
          ⟨infos.map infoText, renderAcc accSecs, t⟩ =
          ⟨infos2.map infoText, renderAcc accSecs2, t2⟩ ∧
        (∀ ci ∈ infos2, infoWF ci) ∧
        (∀ s ∈ accSecs2, s.name = s.src) ∧
        (∀ s ∈ infos2.flatMap ChunkInfo.secs ++ accSecs2, s.src ∈ D ++ ks) ∧
        (∀ j ∈ D ++ ks, (infos2.flatMap ChunkInfo.secs ++ accSecs2).filter
          (fun s => s.src == j) = fileSecs tok tl j (lookupD m j)) := by
  intro ks
  induction ks with
  | nil =>
    intro infos accSecs t D _ _ hwf hacc hsrc hfilter
    exact ⟨infos, accSecs, t, rfl, hwf, hacc, by simpa using hsrc, by simpa using hfilter⟩
  | cons k rest ih =>
    intro infos accSecs t D hnotin hnd hwf hacc hsrc hfilter
    have hknotin : k ∉ D := hnotin k (List.mem_cons_self k rest)
    obtain ⟨infosM, accSecsM, tM, heq, hmem_i, hmem_a, hfq, hfk⟩ :=
      processFile_sim tok tl k (lookupD m k) infos accSecs t
    have hstep : (k :: rest).foldl (fun st j => processFile tok tl st j (lookupD m j))
        ⟨infos.map infoText, renderAcc accSecs, t⟩ =
        rest.foldl (fun st j => processFile tok tl st j (lookupD m j))
          ⟨infosM.map infoText, renderAcc accSecsM, tM⟩ := by
      rw [List.foldl_cons, heq]
    have hwfM : ∀ ci ∈ infosM, infoWF ci := by
      intro ci hci
      rcases hmem_i ci hci with h | ⟨he, hne⟩ | ⟨s, _, he⟩
      · exact hwf ci h
      · subst he
        refine ⟨hne, ?_, ?_⟩
        · intro h2
          cases h2
        · intro _ s hs
          exact hacc s hs
      · subst he
        refine ⟨by simp [dirInfo], fun _ => ⟨s, rfl⟩, ?_⟩
        intro h2
        cases h2
    have haccM : ∀ s ∈ accSecsM, s.name = s.src := by
      intro s hs
      rcases hmem_a s hs with h | h
      · exact hacc s h
      · rw [h]
    have hsrcM : ∀ s ∈ infosM.flatMap ChunkInfo.secs ++ accSecsM,
        s.src ∈ D ++ [k] := by
      intro s hs
      rcases List.mem_append.mp hs with h | h
      · obtain ⟨ci, hci, hsci⟩ := List.mem_flatMap.mp h
        rcases hmem_i ci hci with h2 | ⟨he, _⟩ | ⟨s2, hs2, he⟩
        · have : s.src ∈ D := hsrc s (List.mem_append.mpr (Or.inl
            (List.mem_flatMap.mpr ⟨ci, h2, hsci⟩)))
          exact List.mem_append.mpr (Or.inl this)
        · subst he
          have : s.src ∈ D := hsrc s (List.mem_append.mpr (Or.inr hsci))
          exact List.mem_append.mpr (Or.inl this)
        · subst he
          have hss : s = s2 := by simpa [dirInfo] using hsci
          rw [hss, fileSecs_src tok tl k (lookupD m k) s2 hs2]
          exact List.mem_append.mpr (Or.inr (List.mem_singleton.mpr rfl))
      · rcases hmem_a s h with h2 | h2
        · exact List.mem_append.mpr (Or.inl (hsrc s (List.mem_append.mpr (Or.inr h2))))
        · rw [h2]
          exact List.mem_append.mpr (Or.inr (List.mem_singleton.mpr rfl))
    have hfilterM : ∀ j ∈ D ++ [k],
        (infosM.flatMap ChunkInfo.secs ++ accSecsM).filter (fun s => s.src == j) =
          fileSecs tok tl j (lookupD m j) := by
      intro j hj
      rcases List.mem_append.mp hj with h | h
      · have hjk : j ≠ k := fun hc => hknotin (hc ▸ h)
        rw [hfq j hjk]
        exact hfilter j h
      · rw [List.mem_singleton.mp h]
        apply hfk
        intro s hs hc
        exact hknotin (hc ▸ hsrc s hs)
    have hnotinM : ∀ j ∈ rest, j ∉ D ++ [k] := by
      intro j hj hc
      rcases List.mem_append.mp hc with h | h
      · exact hnotin j (List.mem_cons_of_mem k hj) h
      · exact (List.nodup_cons.mp hnd).1 (List.mem_singleton.mp h ▸ hj)
    obtain ⟨infos2, accSecs2, t2, heq2, hwf2, hacc2, hsrc2, hfilter2⟩ :=
      ih infosM accSecsM tM (D ++ [k]) hnotinM (List.nodup_cons.mp hnd).2
        hwfM haccM hsrcM hfilterM
    have hDk : (D ++ [k]) ++ rest = D ++ k :: rest := by simp
    refine ⟨infos2, accSecs2, t2, by rw [hstep, heq2], hwf2, hacc2, ?_, ?_⟩
    · intro s hs
      have := hsrc2 s hs
      rwa [hDk] at this
    · intro j hj
      apply hfilter2
      rwa [hDk]

theorem chunk_content_master (tok : Str → Nat) (m : List (Str × Str)) (tl : Int)
    (hnd : (m.map Prod.fst).Nodup) :
    ∃ infos : List ChunkInfo,
      chunk_content tok m tl = infos.map infoText ∧
      (∀ ci ∈ infos, infoWF ci) ∧
      (∀ s ∈ infos.flatMap ChunkInfo.secs, s.src ∈ m.map Prod.fst) ∧
      (∀ p ∈ m, (infos.flatMap ChunkInfo.secs).filter (fun s => s.src == p.1) =
        fileSecs tok tl p.1 p.2) := by
  have hperm := List.perm_insertionSort sLe (m.map Prod.fst)
  have hnd2 : (sortKeys (m.map Prod.fst)).Nodup := hperm.nodup_iff.mpr hnd
  obtain ⟨infos2, accSecs2, t2, heq, hwf, hacc, hsrc, hfilter⟩ :=
    chunkFold_master tok tl m (sortKeys (m.map Prod.fst)) [] [] 0 []
      (by intro j _ hc; cases hc) hnd2
      (by intro ci hci; cases hci) (by intro s hs; cases hs)
      (by intro s hs; simp at hs) (by intro j hj; cases hj)
  have hinit : (⟨[], [], 0⟩ : ChunkState) =
      ⟨List.map infoText [], renderAcc [], 0⟩ := rfl
  have hout : chunk_content tok m tl =
      (flush_current_chunk ⟨infos2.map infoText, renderAcc accSecs2, t2⟩).chunks := by
    simp only [chunk_content]
    rw [hinit, heq]
  have hmemkeys : ∀ s ∈ infos2.flatMap ChunkInfo.secs ++ accSecs2,
      s.src ∈ m.map Prod.fst := by
    intro s hs
    have h1 := hsrc s hs
    simp only [List.nil_append] at h1
    exact hperm.mem_iff.mp h1
  have hfilter2 : ∀ p ∈ m, (infos2.flatMap ChunkInfo.secs ++ accSecs2).filter
      (fun s => s.src == p.1) = fileSecs tok tl p.1 p.2 := by
    intro p hp
    have hk : p.1 ∈ sortKeys (m.map Prod.fst) :=
      hperm.mem_iff.mpr (List.mem_map.mpr ⟨p, hp, rfl⟩)
    have := hfilter p.1 (by simpa using hk)
    rwa [lookupD_eq m hnd p hp] at this
  by_cases ha : accSecs2 = []
  · refine ⟨infos2, ?_, hwf, ?_, ?_⟩
    · rw [hout, flush_rep, if_pos ha]
    · intro s hs
      exact hmemkeys s (by rw [ha]; simpa using hs)
    · intro p hp
      have := hfilter2 p hp
      rw [ha, List.append_nil] at this
      exact this
  · refine ⟨infos2 ++ [(⟨CKind.flushed, accSecs2⟩ : ChunkInfo)], ?_, ?_, ?_, ?_⟩
    · rw [hout, flush_rep, if_neg ha]
    · intro ci hci
      rcases List.mem_append.mp hci with h | h
      · exact hwf ci h
      · rw [List.mem_singleton.mp h]
        refine ⟨ha, ?_, ?_⟩
        · intro h2
          cases h2
        · intro _ s hs
          exact hacc s hs
    · intro s hs
      apply hmemkeys
      rw [List.flatMap_append] at hs
      simpa using hs
    · intro p hp
      have := hfilter2 p hp
      rw [List.flatMap_append]
      simpa using this

/-!
## Amended chunker claims
-/

/-- C3 amended: concatenating the section bodies produced for a file
reconstructs its content modulo newline seams AND modulo the
surrounding whitespace trimmed when an accumulator chunk is flushed:
every non-newline character appears exactly once, in order, in the
section bodies; a directly-emitted part chunk is exactly its section's
text, while a flushed chunk is the trimmed `\n\n`-joined text of its
packed sections. -/
theorem c3_no_data_loss_amended (tok : Str → Nat) (m : List (Str × Str)) (tl : Int)
    (hnd : (m.map Prod.fst).Nodup) :
    ∃ infos : List ChunkInfo,
      chunk_content tok m tl = infos.map infoText ∧
      (∀ ci ∈ infos, ci.secs ≠ [] ∧
        (ci.kind = CKind.direct → ∃ s, ci.secs = [s] ∧ infoText ci = secText s) ∧
        (ci.kind = CKind.flushed → infoText ci = strip (renderAcc ci.secs))) ∧
      ∀ p ∈ m, catStr (((infos.flatMap ChunkInfo.secs).filter
        (fun s => s.src == p.1)).map (fun s => filterNN s.body)) = filterNN p.2 := by
  obtain ⟨infos, hout, hwf, _, hfilter⟩ := chunk_content_master tok m tl hnd
  refine ⟨infos, hout, ?_, ?_⟩
  · intro ci hci
    obtain ⟨hne, hdir, _⟩ := hwf ci hci
    refine ⟨hne, ?_, ?_⟩
    · intro hd
      obtain ⟨s, hs⟩ := hdir hd
      exact ⟨s, hs, by simp [infoText, hd, hs, renderAcc]⟩
    · intro hf
      simp [infoText, hf]
  · intro p hp
    rw [hfilter p hp, fileSecs_bodies]

/-- C3 witness: the amended reconstruction at a concrete
one-file mapping. -/
theorem c3_no_data_loss_witness :
    (([(str "a", str "x")].map Prod.fst).Nodup ∧
      ∃ infos : List ChunkInfo,
        chunk_content charCount [(str "a", str "x")] 100 = infos.map infoText ∧
        (∀ ci ∈ infos, ci.secs ≠ [] ∧
          (ci.kind = CKind.direct → ∃ s, ci.secs = [s] ∧ infoText ci = secText s) ∧
          (ci.kind = CKind.flushed → infoText ci = strip (renderAcc ci.secs))) ∧
        ∀ p ∈ [(str "a", str "x")], catStr (((infos.flatMap ChunkInfo.secs).filter
          (fun s => s.src == p.1)).map (fun s => filterNN s.body)) = filterNN p.2) :=
  ⟨by decide, c3_no_data_loss_amended charCount [(str "a", str "x")] 100 (by decide)⟩

/-- C4 amended: the chunker is a total function, and returns a
non-empty chunk sequence whenever some file either avoids line-split
mode or has at least one non-empty line; an all-newline file below the
header budget is silently dropped. -/
theorem c4_nonempty_amended (tok : Str → Nat) (m : List (Str × Str)) (tl : Int)
    (hnd : (m.map Prod.fst).Nodup)
    (h : ∃ p ∈ m, fileHasLongLines tok tl p.1 (splitNl p.2) = false ∨
      ∃ ℓ ∈ splitNl p.2, ℓ ≠ ([] : Str)) :
    chunk_content tok m tl ≠ [] := by
  obtain ⟨p, hp, hcond⟩ := h
  obtain ⟨infos, hout, _, _, hfilter⟩ := chunk_content_master tok m tl hnd
  have hfs : fileSecs tok tl p.1 p.2 ≠ [] := fileSecs_ne_nil tok tl p.1 p.2 hcond
  intro hc
  rw [hc] at hout
  have hinfos : infos = [] := by
    cases infos with
    | nil => rfl
    | cons a l => exact absurd hout (by simp)
  have h2 := hfilter p hp
  rw [hinfos] at h2
  simp only [List.flatMap_nil, List.filter_nil] at h2
  exact hfs h2.symm

/-- C4 witness: a one-file mapping whose file fits whole-file mode
yields non-empty output. -/
theorem c4_nonempty_witness :
    (([(str "f", str "hi")].map Prod.fst).Nodup ∧
      ∃ p ∈ [(str "f", str "hi")],
        fileHasLongLines charCount 100 p.1 (splitNl p.2) = false ∨
        ∃ ℓ ∈ splitNl p.2, ℓ ≠ ([] : Str)) ∧
    chunk_content charCount [(str "f", str "hi")] 100 ≠ [] :=
  ⟨⟨by decide, ⟨(str "f", str "hi"), List.mem_singleton.mpr rfl, Or.inl (by decide)⟩⟩,
   c4_nonempty_amended charCount [(str "f", str "hi")] 100 (by decide)
     ⟨(str "f", str "hi"), List.mem_singleton.mpr rfl, Or.inl (by decide)⟩⟩

/-- C8 amended: for a mapping containing an empty-content file and a
budget covering the file's header section, the output contains exactly
one section for that file, bearing header name `k` with empty body (the
section may share its chunk with other packed files). -/
theorem c8_empty_file_amended (tok : Str → Nat) (m : List (Str × Str)) (tl : Int)
    (k : Str) (hnd : (m.map Prod.fst).Nodup) (hmem : (k, ([] : Str)) ∈ m)
    (hfit : (tok ([] : Str) : Int) + (tok (format_file_section k []) : Int) ≤ tl) :
    ∃ infos : List ChunkInfo,
      chunk_content tok m tl = infos.map infoText ∧
      (infos.flatMap ChunkInfo.secs).filter (fun s => s.src == k) =
        [(⟨k, k, []⟩ : Sec)] := by
  obtain ⟨infos, hout, _, _, hfilter⟩ := chunk_content_master tok m tl hnd
  refine ⟨infos, hout, ?_⟩
  have h1 := hfilter (k, []) hmem
  rw [h1]
  have hlines : splitNl ([] : Str) = [[]] := rfl
  have hlong : fileHasLongLines tok tl k (splitNl ([] : Str)) = false := by
    simp only [fileHasLongLines, hlines, List.any_cons, List.any_nil, Bool.or_false]
    rw [decide_eq_false_iff_not]
    omega
  have hfit2 : (tok (format_file_section k ([] : Str)) : Int) ≤ tl := by
    have h0 : (0 : Int) ≤ (tok ([] : Str) : Int) := Int.ofNat_nonneg _
    omega
  simp only [fileSecs]
  rw [if_neg (by simp [hlong]), if_pos hfit2]

/-- C8 witness: the amended property at a concrete singleton mapping of
an empty file. -/
theorem c8_empty_file_witness :
    (([(str "e", ([] : Str))].map Prod.fst).Nodup ∧
      (str "e", ([] : Str)) ∈ [(str "e", ([] : Str))] ∧
      (charCount ([] : Str) : Int) +
        (charCount (format_file_section (str "e") []) : Int) ≤ 100) ∧
    ∃ infos : List ChunkInfo,
      chunk_content charCount [(str "e", ([] : Str))] 100 = infos.map infoText ∧
      (infos.flatMap ChunkInfo.secs).filter (fun s => s.src == str "e") =
        [(⟨str "e", str "e", []⟩ : Sec)] :=
  ⟨⟨by decide, List.mem_singleton.mpr rfl, by decide⟩,
   c8_empty_file_amended charCount [(str "e", ([] : Str))] 100 (str "e")
     (by decide) (List.mem_singleton.mpr rfl) (by decide)⟩
